import Mathlib

/-!
Verification of the asset-scan core of the `dotagents` repository.

The development shallowly embeds the scan/reconciliation core
(`src/core/assets.ts` and `src/core/scan-conflicts.ts`) in Lean:

* the filesystem is modelled as an in-memory tree (`FsTree`); a file whose
  content is `none` models a file whose read fails with an I/O error;
* paths are lists of segments (`Path`); joining with `"/"` models the
  POSIX-normalised form the code produces via `toPosix`;
* SHA-256 is modelled as an injective encoding: a fingerprint's `hash`
  field holds the exact byte stream the code feeds to the hasher, so
  equality of model hashes coincides with equality of real digests on
  identical streams, and (under the standard collision-free idealisation)
  with equality of real digests in general;
* `localeCompare`-based sorts are modelled with Lean's lexicographic
  order on strings: the code only needs some fixed total order;
* promise rejection is modelled with `Except`: a rejected promise that is
  awaited corresponds to an `Except.error` that propagates.
-/

namespace Dotagents

/-- Segment list form of a filesystem path. -/
abbrev Path := List String

/-- Join path segments with forward slashes, as `toPosix` produces. -/
def joinPath : Path → String
  | [] => ""
  | [seg] => seg
  | seg :: rest => seg ++ "/" ++ joinPath rest

/-- Split a string at a separator character, the single-character case of
JS `split`. -/
def splitCharAux (sep : Char) : List Char → List Char → List String
  | [], acc => [String.mk acc.reverse]
  | c :: rest, acc =>
      if c = sep then String.mk acc.reverse :: splitCharAux sep rest []
      else splitCharAux sep rest (c :: acc)

/-- `s.split("/")`, also the meaning of `String.splitOn "/"`. -/
def splitSlash (s : String) : List String :=
  splitCharAux '/' s.data []

/-- ASCII lower-casing of one character; stands in for JS `toLowerCase`,
with which it agrees on every string the claims touch. -/
def lowerChar (c : Char) : Char :=
  if 'A' ≤ c ∧ c ≤ 'Z' then Char.ofNat (c.toNat + 32) else c

/-- ASCII lower-casing of a string. -/
def lowerStr (s : String) : String :=
  String.mk (s.data.map lowerChar)

/-- Does the lower-cased string end in `.md`? -/
def endsWithMdLower (s : String) : Bool :=
  match (lowerStr s).data.reverse with
  | 'd' :: 'm' :: '.' :: _ => true
  | _ => false

/-- Drop the final `n` characters, JS `slice(0, -n)` / `replace(/...$/)`. -/
def dropRightStr (s : String) (n : Nat) : String :=
  String.mk (s.data.take (s.data.length - n))

/-- Is one string a prefix of another (`String.prototype.startsWith`)? -/
def strStartsWith (s pre : String) : Bool :=
  pre.data.isPrefixOf s.data

/-- JS whitespace trimming (`String.prototype.trim`), ASCII whitespace. -/
def trimStr (s : String) : String :=
  let ws : Char → Bool := fun c => c = ' ' ∨ c = '\t' ∨ c = '\n' ∨ c = '\r'
  String.mk (((s.data.dropWhile ws).reverse.dropWhile ws).reverse)

/-- `AssetKind` from `src/core/types.ts`: `"prompt" | "skill"`. -/
inductive AssetKind where
  | prompt
  | skill
deriving DecidableEq, Repr

/-- The literal string of an `AssetKind`, used by the final sort. -/
def AssetKind.str : AssetKind → String
  | .prompt => "prompt"
  | .skill => "skill"

/-- `DiscoveredAsset` from `src/core/types.ts`. -/
structure DiscoveredAsset where
  id : String
  kind : AssetKind
  source : String
  path : Path
deriving DecidableEq, Repr

/-- `ScanConflictState` from `scan-conflicts.ts`. -/
inductive ScanConflictState where
  | noConflict
  | contentDrift
  | homeModifiedUntracked
  | homeUntracked
  | ambiguousMultiSource
deriving DecidableEq, Repr

/-- `ScanDiffSummary` from `scan-conflicts.ts`. -/
structure ScanDiffSummary where
  summary : String
  preview : Option (List String)
deriving DecidableEq, Repr

/-- `ScanConflict` from `scan-conflicts.ts`. -/
structure ScanConflict where
  kind : AssetKind
  id : String
  state : ScanConflictState
  reason : String
  recommendation : String
  sources : List String
  diff : Option ScanDiffSummary
deriving DecidableEq, Repr

/-- `AssetFingerprint` from `scan-conflicts.ts`.  `hash` holds the byte
stream fed to SHA-256 (injective-hash model). -/
structure AssetFingerprint where
  hash : String
  description : String
  previewLines : Option (List String)
deriving DecidableEq, Repr

mutual

/-- In-memory filesystem tree.  `file none` is a file whose read fails. -/
inductive FsTree where
  | file (content : Option String)
  | dir (children : FsEntries)

/-- Association list of directory entries (name, node). -/
inductive FsEntries where
  | nil
  | cons (name : String) (child : FsTree) (rest : FsEntries)

end

mutual

def FsTree.beq : FsTree → FsTree → Bool
  | .file a, .file b => a = b
  | .dir a, .dir b => FsEntries.beq a b
  | _, _ => false

def FsEntries.beq : FsEntries → FsEntries → Bool
  | .nil, .nil => true
  | .cons n c r, .cons n' c' r' => n = n' && FsTree.beq c c' && FsEntries.beq r r'
  | _, _ => false

end

/-- First entry with the given name, as `readdir`-based lookup finds it. -/
def FsEntries.find : FsEntries → String → Option FsTree
  | .nil, _ => none
  | .cons n c rest, key => if n = key then some c else rest.find key

/-- Resolve a path below a node, mirroring successive directory lookups. -/
def lookupPath : Path → FsTree → Option FsTree
  | [], t => some t
  | _ :: _, .file _ => none
  | seg :: rest, .dir es =>
      match es.find seg with
      | some c => lookupPath rest c
      | none => none

/-- `fs.access`-style existence check (`pathExists` in the source). -/
def pathExists (world : FsTree) (p : Path) : Bool :=
  (lookupPath p world).isSome

/-- `fs.stat`-based directory test (`isDirectory` in the source). -/
def isDirectoryAt (world : FsTree) (p : Path) : Bool :=
  match lookupPath p world with
  | some (.dir _) => true
  | _ => false

/-- `fs.stat`-based file test (`isFile` in the source). -/
def isFileAt (world : FsTree) (p : Path) : Bool :=
  match lookupPath p world with
  | some (.file _) => true
  | _ => false

/-- `fs.readFile`: fails when the path is missing, a directory, or an
unreadable file. -/
def readFile (world : FsTree) (p : Path) : Except String String :=
  match lookupPath p world with
  | some (.file (some c)) => .ok c
  | some (.file none) => .error ("EIO: read failed: " ++ joinPath p)
  | some (.dir _) => .error ("EISDIR: " ++ joinPath p)
  | none => .error ("ENOENT: " ++ joinPath p)

/-- Sequential effectful map over `Except`, the value-level meaning of both
a sequential `await` loop and an `await Promise.all(xs.map f)`: the result
is `ok` exactly when every element succeeds, and any rejection propagates. -/
def mapME (f : α → Except ε β) : List α → Except ε (List β)
  | [] => .ok []
  | x :: xs =>
      match f x with
      | .error e => .error e
      | .ok y =>
          match mapME f xs with
          | .error e => .error e
          | .ok ys => .ok (y :: ys)

/-- First-occurrence deduplication with the set of already-seen elements,
the semantics of filling a JS `Set`. -/
def dedupFirstAux [DecidableEq α] (seen : List α) : List α → List α
  | [] => []
  | x :: xs =>
      if x ∈ seen then dedupFirstAux seen xs
      else x :: dedupFirstAux (x :: seen) xs

/-- First-occurrence deduplication, the order-preserving semantics of
`[...new Set(xs)]`. -/
def dedupFirst [DecidableEq α] (l : List α) : List α :=
  dedupFirstAux [] l

/-- Insert into a sorted list, before the first element it sorts
before-or-equal to. -/
def insertSorted (le : α → α → Bool) (x : α) : List α → List α
  | [] => [x]
  | y :: ys => if le x y then x :: y :: ys else y :: insertSorted le x ys

/-- Stable comparison sort, the model of `Array.prototype.sort` with a
total comparator. -/
def sortByLe (le : α → α → Bool) : List α → List α
  | [] => []
  | x :: xs => insertSorted le x (sortByLe le xs)

/-- JS `content.split(/\r?\n/)` on the character list: split at `"\r\n"`
or `"\n"`; a lone `"\r"` is not a separator. -/
def splitLinesChars : List Char → List Char → List String
  | [], acc => [String.mk acc.reverse]
  | '\r' :: '\n' :: rest, acc => String.mk acc.reverse :: splitLinesChars rest []
  | '\n' :: rest, acc => String.mk acc.reverse :: splitLinesChars rest []
  | c :: rest, acc => splitLinesChars rest (c :: acc)

/-- JS `content.split(/\r?\n/)`. -/
def splitLinesJs (s : String) : List String :=
  splitLinesChars s.data []

/-- The `i`-th (0-based) line of a string, `""` when absent — the value of
`lines[i] ?? ""` in the preview loop. -/
def lineAtJs (s : String) (i : Nat) : String :=
  (splitLinesJs s).getD i ""

/-- All files below a node as (relative segment path, content) pairs,
mirroring `collectDirectoryFiles`' recursive `readdir` walk (which applies
no deny-list).  The claims about it are enumeration-order independent, so
the depth-first enumeration order stands in for the code's recursion. -/
def FsEntries.collectFiles : FsEntries → List (Path × Option String)
  | .nil => []
  | .cons n (.file content) rest => ([n], content) :: rest.collectFiles
  | .cons n (.dir es) rest =>
      es.collectFiles.map (fun pc => (n :: pc.1, pc.2)) ++ rest.collectFiles

/-- Lexicographic strict order on character lists. -/
def listLtChars : List Char → List Char → Bool
  | [], [] => false
  | [], _ :: _ => true
  | _ :: _, [] => false
  | a :: as, b :: bs =>
      if a < b then true else if b < a then false else listLtChars as bs

/-- Lexicographic order on character lists. -/
def listLeChars : List Char → List Char → Bool
  | [], _ => true
  | _ :: _, [] => false
  | a :: as, b :: bs =>
      if a < b then true else if b < a then false else listLeChars as bs

/-- Boolean string order used to model `localeCompare`-based sorts: the
code only needs some fixed total order on strings. -/
def strLe (a b : String) : Bool :=
  listLeChars a.data b.data

/-- Strict form of `strLe`. -/
def strLt (a b : String) : Bool :=
  listLtChars a.data b.data

/-- `collectDirectoryFiles`' final sort: files ordered by path.  Sorting
the slash-joined relative path is equivalent to sorting the absolute path
because every absolute path shares the same root prefix. -/
def sortFilesByRel (files : List (Path × Option String)) : List (Path × Option String) :=
  sortByLe (fun a b => strLe (joinPath a.1) (joinPath b.1)) files

/-- The byte stream `fingerprintAsset` feeds to the skill hasher:
`rel ++ "\n" ++ content ++ "\n"` per file, in sorted order; the first
unreadable file rejects the whole fingerprint. -/
def buildSkillStream : List (Path × Option String) → Except String String
  | [] => .ok ""
  | (rel, none) :: _ => .error ("EIO: read failed: " ++ joinPath rel)
  | (rel, some c) :: rest =>
      (buildSkillStream rest).map
        (fun s => joinPath rel ++ "\n" ++ c ++ "\n" ++ s)

/-- `fingerprintAsset` from `scan-conflicts.ts`.  In the injective-hash
model the `hash` field holds the hashed stream itself: the raw text for a
prompt, the sorted `(rel, "\n", bytes, "\n")` concatenation for a skill. -/
def fingerprintAsset (world : FsTree) (kind : AssetKind) (p : Path)
    (includePreview : Bool) : Except String AssetFingerprint :=
  match kind with
  | .prompt =>
      match readFile world p with
      | .error e => .error e
      | .ok content => .ok
        { hash := content,
          description := toString (splitLinesJs content).length ++ " lines",
          previewLines :=
            if includePreview then some ((splitLinesJs content).take 10) else none }
  | .skill =>
      match lookupPath p world with
      | some (.dir es) =>
          let files := sortFilesByRel es.collectFiles
          match buildSkillStream files with
          | .error e => .error e
          | .ok stream => .ok
            { hash := stream,
              description := toString files.length ++ " file(s)",
              previewLines :=
                if includePreview then
                  some ((files.take 10).map (fun pc => joinPath pc.1))
                else none }
      | some (.file _) => .error ("ENOTDIR: " ++ joinPath p)
      | none => .error ("ENOENT: " ++ joinPath p)

/-- `buildPromptPreview`'s loop: at each index pair the (padded) lines,
emit both formatted lines when they differ, and stop once the output has
reached 8 lines. -/
def previewGo (h s : List String) (m : Nat) (i : Nat) (out : List String) :
    List String :=
  if i < m then
    let hl := h.getD i ""
    let sl := s.getD i ""
    if hl = sl then previewGo h s m (i + 1) out
    else
      let out2 := out ++
        ["line " ++ toString (i + 1) ++ " home:   " ++ hl,
         "line " ++ toString (i + 1) ++ " source: " ++ sl]
      if 8 ≤ out2.length then out2 else previewGo h s m (i + 1) out2
  else out
termination_by m - i

/-- `buildPromptPreview` from `scan-conflicts.ts`. -/
def buildPromptPreview (homeLines sourceLines : List String) : List String :=
  previewGo homeLines sourceLines (max homeLines.length sourceLines.length) 0 []

/-- `buildDiffSummary` from `scan-conflicts.ts`. -/
def buildDiffSummary (kind : AssetKind) (home source : AssetFingerprint)
    (includePreview : Bool) : ScanDiffSummary :=
  match kind with
  | .prompt =>
      { summary := "home(" ++ home.description ++ ") != source(" ++
          source.description ++ ")",
        preview :=
          match includePreview, home.previewLines, source.previewLines with
          | true, some h, some s => some (buildPromptPreview h s)
          | _, _, _ => none }
  | .skill =>
      { summary := "home(" ++ home.description ++ ") != source(" ++
          source.description ++ ")",
        preview :=
          match includePreview, home.previewLines, source.previewLines with
          | true, some h, some s =>
              some ("home files:" :: h.map (fun l => "  " ++ l) ++
                "source files:" :: s.map (fun l => "  " ++ l))
          | _, _, _ => none }

/-- The composition the code uses to build a prompt conflict preview:
`fingerprintAsset` stores the first 10 lines of each side, and
`buildDiffSummary` hands those to `buildPromptPreview`. -/
def promptDiffPreview (homeContent sourceContent : String) : List String :=
  buildPromptPreview ((splitLinesJs homeContent).take 10)
    ((splitLinesJs sourceContent).take 10)

/-- The grouping key `${asset.kind}:${asset.id}` of `groupByKindAndId`,
modelled as the pair: `parseKey` re-joins id parts, so the string key is a
lossless encoding of this pair. -/
def keyOf (a : DiscoveredAsset) : AssetKind × String :=
  (a.kind, a.id)

/-- One step of `groupByKindAndId`: append the asset to its key's group,
or start a new group at the end (JS `Map` preserves insertion order). -/
def insertGrouped (acc : List ((AssetKind × String) × List DiscoveredAsset))
    (key : AssetKind × String) (a : DiscoveredAsset) :
    List ((AssetKind × String) × List DiscoveredAsset) :=
  match acc with
  | [] => [(key, [a])]
  | (k, l) :: rest =>
      if k = key then (k, l ++ [a]) :: rest
      else (k, l) :: insertGrouped rest key a

/-- `groupByKindAndId` from `scan-conflicts.ts`. -/
def groupByKindAndId (assets : List DiscoveredAsset) :
    List ((AssetKind × String) × List DiscoveredAsset) :=
  assets.foldl (fun acc a => insertGrouped acc (keyOf a) a) []

/-- Home-relative path of an asset:
`prompts/<id>.md` for prompts, `skills/<id>` for skills. -/
def homeRelPath (kind : AssetKind) (id : String) : Path :=
  match kind with
  | .prompt => "prompts" :: splitSlash (id ++ ".md")
  | .skill => "skills" :: splitSlash id

/-- Git-tracked test of the home copy: exact membership for prompts, a
`skills/<id>/` prefix test for skills. -/
def homeTrackedOf (trackedFiles : List String) (kind : AssetKind) (id : String) :
    Bool :=
  match kind with
  | .prompt => trackedFiles.contains ("prompts/" ++ id ++ ".md")
  | .skill => trackedFiles.any (fun f => strStartsWith f ("skills/" ++ id ++ "/"))

/-- The classification block of `buildScanConflicts`' per-group loop: the
state, reason, recommendation and optional diff chosen from the source
fingerprints, the home fingerprint (when the home copy exists), and the
tracked flag, in the source's precedence order. -/
def classifyGroup
    (sourceFingerprints : List (DiscoveredAsset × AssetFingerprint))
    (homeFingerprint : Option AssetFingerprint) (homeTracked : Bool)
    (kind : AssetKind) (includeDiffFull : Bool) :
    ScanConflictState × String × String × Option ScanDiffSummary :=
  let uniqueSourceHashes := dedupFirst (sourceFingerprints.map (fun x => x.2.hash))
  if 1 < uniqueSourceHashes.length then
      (.ambiguousMultiSource,
       "Multiple sources provide different content for the same asset id.",
       "Use --sync-select with one source path after reviewing --diff-full.",
       some
         { summary := "Found " ++ toString uniqueSourceHashes.length ++
             " distinct source variants.",
           preview :=
             if includeDiffFull then
               some (sourceFingerprints.flatMap (fun x =>
                 ["source " ++ x.1.source ++ ": " ++ joinPath x.1.path,
                  "  " ++ x.2.description]))
             else none })
    else
      match homeFingerprint with
      | some hfp =>
          match sourceFingerprints.head? with
          | some (_, sfp) =>
              if sfp.hash ≠ hfp.hash then
                let st : ScanConflictState :=
                  if homeTracked then .contentDrift else .homeModifiedUntracked
                (st,
                 if homeTracked then
                   "Home asset content differs from discovered source content."
                 else "Home asset differs from source and is not git-tracked.",
                 if homeTracked then
                   "Review drift with --diff-full before syncing."
                 else "Review and track home asset, then sync intentionally.",
                 some (buildDiffSummary kind hfp sfp includeDiffFull))
              else if ¬homeTracked then
                (.homeUntracked, "Home asset exists but is not git-tracked.",
                 "Track the home asset in git to avoid accidental drift.", none)
              else
                (.noConflict, "No detected conflict for this asset id.",
                 "No action required.", none)
          | none =>
              if ¬homeTracked then
                (.homeUntracked, "Home asset exists but is not git-tracked.",
                 "Track the home asset in git to avoid accidental drift.", none)
              else
                (.noConflict, "No detected conflict for this asset id.",
                 "No action required.", none)
      | none =>
          (.noConflict, "No detected conflict for this asset id.",
           "No action required.", none)

/-- The home copy's fingerprint step of `buildScanConflicts`' loop:
`none` when the home path does not exist, otherwise the fingerprint,
whose read error propagates. -/
def homeFingerprintE (world : FsTree) (home : Path) (kind : AssetKind)
    (id : String) (includeDiffFull : Bool) :
    Except String (Option AssetFingerprint) :=
  if pathExists world (home ++ homeRelPath kind id) then
    (fingerprintAsset world kind (home ++ homeRelPath kind id)
      includeDiffFull).map some
  else .ok none

/-- The body of `buildScanConflicts`' per-group loop: fingerprint every
discovered copy, fingerprint the home copy when it exists, and classify.
Any fingerprint rejection propagates. -/
def scanConflictForGroup (world : FsTree) (home : Path)
    (trackedFiles : List String) (includeDiff includeDiffFull : Bool)
    (kind : AssetKind) (id : String) (assets : List DiscoveredAsset) :
    Except String ScanConflict :=
  match mapME (fun a =>
      (fingerprintAsset world a.kind a.path includeDiffFull).map
        (fun fp => (a, fp))) assets with
  | .error e => .error e
  | .ok sourceFingerprints =>
  let sourceLabels := sortByLe strLe (dedupFirst (assets.map (fun a => a.source)))
  match homeFingerprintE world home kind id includeDiffFull with
  | .error e => .error e
  | .ok homeFingerprint =>
  let homeTracked := homeTrackedOf trackedFiles kind id
  let classified := classifyGroup sourceFingerprints homeFingerprint homeTracked
    kind includeDiffFull
  let diff := if ¬includeDiff ∧ ¬includeDiffFull then none else classified.2.2.2
  .ok
    { kind := kind, id := id, state := classified.1, reason := classified.2.1,
      recommendation := classified.2.2.1, sources := sourceLabels, diff := diff }

/-- Comparator of the final conflict sort:
`kind.localeCompare || id.localeCompare`, as a boolean "should sort
before-or-equal" for a stable merge sort. -/
def conflictLe (l r : ScanConflict) : Bool :=
  strLt l.kind.str r.kind.str ||
    (decide (l.kind.str = r.kind.str) && strLe l.id r.id)

/-- `buildScanConflicts` from `scan-conflicts.ts`: group discovered assets
by identity, classify each group, sort the result.  A fingerprint read
error rejects the whole computation, as an uncaught promise rejection
does. -/
def buildScanConflicts (world : FsTree) (home : Path)
    (trackedFiles : List String) (includeDiff includeDiffFull : Bool)
    (assets : List DiscoveredAsset) : Except String (List ScanConflict) :=
  match mapME (fun g =>
      scanConflictForGroup world home trackedFiles includeDiff includeDiffFull
        g.1.1 g.1.2 g.2) (groupByKindAndId assets) with
  | .error e => .error e
  | .ok conflicts => .ok (sortByLe conflictLe conflicts)

/-- The walker's deny-list (`SKIP_DIRS` in `assets.ts`). -/
def SKIP_DIRS : List String :=
  [".git", "node_modules", "dist", "build", ".next", ".turbo"]

/-- `stripMarkdownExt`: `replace(/\.md$/i, "")`. -/
def stripMarkdownExt (p : String) : String :=
  if endsWithMdLower p then dropRightStr p 3 else p

/-- Relative paths of the markdown files `walkDirectory` reaches below a
node: the walk skips deny-listed directories entirely and keeps files
whose lower-cased name ends in `.md` (`listMarkdownFiles`).  The BFS
enumeration order is abstracted to the tree order; the claims are
membership-based. -/
def FsEntries.markdownFiles : FsEntries → List Path
  | .nil => []
  | .cons n (.file _) rest =>
      (if endsWithMdLower n then [[n]] else []) ++ rest.markdownFiles
  | .cons n (.dir es) rest =>
      if n ∈ SKIP_DIRS then rest.markdownFiles
      else es.markdownFiles.map (fun p => n :: p) ++ rest.markdownFiles

/-- `discoverSkillDirectories`' per-directory test: the directory directly
contains a file named exactly `SKILL.md` or exactly `skill.md`. -/
def hasManifest (es : FsEntries) : Bool :=
  (match es.find "SKILL.md" with
   | some (.file _) => true
   | _ => false) ||
  (match es.find "skill.md" with
   | some (.file _) => true
   | _ => false)

/-- Relative paths of the skill directories `discoverSkillDirectories`
finds below a node: every walked directory (deny-listed names are skipped
entirely, the root itself is never a candidate) that satisfies
`hasManifest`.  Enumeration order abstracted as for `markdownFiles`. -/
def FsEntries.skillDirs : FsEntries → List Path
  | .nil => []
  | .cons _ (.file _) rest => rest.skillDirs
  | .cons n (.dir es) rest =>
      if n ∈ SKIP_DIRS then rest.skillDirs
      else
        (if hasManifest es then [[n]] else []) ++
          es.skillDirs.map (fun p => n :: p) ++ rest.skillDirs

/-- Characters the slug keeps: `[a-z0-9._/]`. -/
def isSlugChar (c : Char) : Bool :=
  ('a' ≤ c && c ≤ 'z') || ('0' ≤ c && c ≤ '9') || c == '.' || c == '_' || c == '/'

/-- `replace(/[^a-z0-9._\/]+/g, "-")` tracking whether the previous
character was disallowed: each maximal run of disallowed characters
becomes one dash. -/
def replaceDisallowedAux : Bool → List Char → List Char
  | _, [] => []
  | prevBad, c :: cs =>
      if isSlugChar c then c :: replaceDisallowedAux false cs
      else if prevBad then replaceDisallowedAux true cs
      else '-' :: replaceDisallowedAux true cs

/-- `replace(/[^a-z0-9._\/]+/g, "-")`: each maximal run of disallowed
characters becomes one dash. -/
def replaceDisallowedRuns (l : List Char) : List Char :=
  replaceDisallowedAux false l

/-- `replace(/X{2,}/g, "X")` for a single character, tracking whether the
previous character was the target: collapse runs. -/
def collapseRunsAux (target : Char) : Bool → List Char → List Char
  | _, [] => []
  | inRun, c :: cs =>
      if c = target then
        if inRun then collapseRunsAux target true cs
        else c :: collapseRunsAux target true cs
      else c :: collapseRunsAux target false cs

/-- `replace(/X{2,}/g, "X")` for a single character: collapse runs. -/
def collapseRuns (target : Char) (l : List Char) : List Char :=
  collapseRunsAux target false l

/-- Characters stripped from the ends: dash, slash, dot. -/
def isEdgeChar (c : Char) : Bool :=
  c == '-' || c == '/' || c == '.'

/-- `replace(/^[-\/.]+|[-\/.]+$/g, "")`. -/
def stripEdges (l : List Char) : List Char :=
  ((l.dropWhile isEdgeChar).reverse.dropWhile isEdgeChar).reverse

/-- `slugifyName` from `assets.ts`. -/
def slugifyName (input : String) : String :=
  let s0 := lowerStr (trimStr input)
  let s1 := if endsWithMdLower s0 then dropRightStr s0 3 else s0
  let chars := stripEdges (collapseRuns '-' (collapseRuns '/'
    (replaceDisallowedRuns s1.data)))
  let segs := (splitSlash (String.mk chars)).filter
    (fun seg => seg ≠ "" ∧ seg ≠ "." ∧ seg ≠ "..")
  joinPath segs

/-- `listPromptIdsFromRoot`: markdown files under `<root>/prompts`,
POSIX-joined, extension stripped.  The source accumulates into a `Set`;
the model keeps the list, compared by membership. -/
def listPromptIdsFromRoot (world : FsTree) (root : Path) : List String :=
  match lookupPath (root ++ ["prompts"]) world with
  | some (.dir es) => es.markdownFiles.map (fun p => stripMarkdownExt (joinPath p))
  | _ => []

/-- `listSkillIdsFromRoot`: skill directories under `<root>/skills`,
POSIX-joined. -/
def listSkillIdsFromRoot (world : FsTree) (root : Path) : List String :=
  match lookupPath (root ++ ["skills"]) world with
  | some (.dir es) => es.skillDirs.map joinPath
  | _ => []

/-- `ScanSource` from `config.ts` (label, root, explicit flag). -/
structure ScanSource where
  name : String
  root : Path
  explicit : Bool
deriving DecidableEq, Repr

/-- `PROMPT_SOURCE_DIRS` from `assets.ts`, as segment paths. -/
def PROMPT_SOURCE_DIRS : List Path :=
  [["prompts"], ["commands"], [".agents", "prompts"], [".claude", "prompts"],
   [".claude", "commands"], [".codex", "prompts"]]

/-- `SKILL_SOURCE_DIRS` from `assets.ts`. -/
def SKILL_SOURCE_DIRS : List Path :=
  [["skills"], [".agents", "skills"], [".claude", "skills"], [".codex", "skills"]]

/-- `resolveExistingDirectories` followed by `uniqueStrings`. -/
def resolveExistingDirectories (world : FsTree) (base : Path)
    (subdirs : List Path) : List Path :=
  dedupFirst ((subdirs.filterMap (fun sd =>
    let candidate := base ++ sd
    if isDirectoryAt world candidate then some candidate else none)))

/-- `resolveSourcePromptRoots`. -/
def resolveSourcePromptRoots (world : FsTree) (root : Path) (explicit : Bool) :
    List Path :=
  resolveExistingDirectories world root
    (if explicit then [] :: PROMPT_SOURCE_DIRS else PROMPT_SOURCE_DIRS)

/-- `resolveSourceSkillRoots`. -/
def resolveSourceSkillRoots (world : FsTree) (root : Path) (explicit : Bool) :
    List Path :=
  resolveExistingDirectories world root
    (if explicit then [] :: SKILL_SOURCE_DIRS else SKILL_SOURCE_DIRS)

/-- `discoverPromptsFromSource`: the discovered id is the POSIX relative
path with the markdown extension stripped — no slug normalisation. -/
def discoverPromptsFromSource (world : FsTree) (src : ScanSource) :
    List DiscoveredAsset :=
  (resolveSourcePromptRoots world src.root src.explicit).flatMap (fun root =>
    (match lookupPath root world with
     | some (.dir es) => es.markdownFiles
     | _ => []).map (fun rel =>
      { id := stripMarkdownExt (joinPath rel), kind := .prompt,
        source := src.name, path := root ++ rel }))

/-- `discoverSkillsFromSource`: the discovered id is the POSIX relative
path of the skill directory. -/
def discoverSkillsFromSource (world : FsTree) (src : ScanSource) :
    List DiscoveredAsset :=
  (resolveSourceSkillRoots world src.root src.explicit).flatMap (fun root =>
    (match lookupPath root world with
     | some (.dir es) => es.skillDirs
     | _ => []).map (fun rel =>
      { id := joinPath rel, kind := .skill, source := src.name,
        path := root ++ rel }))

/-- `uniqueAssets`: dedupe by `(kind, id, path)`, keeping first
occurrences. -/
def uniqueAssets (assets : List DiscoveredAsset) : List DiscoveredAsset :=
  (assets.foldl (fun acc a =>
      if acc.any (fun b => b.kind = a.kind ∧ b.id = a.id ∧ b.path = a.path)
      then acc else acc ++ [a]) [])

/-- `ScanReport` as `scanUnsyncedAssets` builds it (`assets.ts`). -/
structure ScanReport where
  home : Path
  scannedSources : List Path
  discoveredPrompts : List DiscoveredAsset
  discoveredSkills : List DiscoveredAsset
  unsyncedPrompts : List DiscoveredAsset
  unsyncedSkills : List DiscoveredAsset
deriving DecidableEq, Repr

/-- `scanUnsyncedAssets` from `assets.ts`: membership tests against home
ids are exact string comparisons. -/
def scanUnsyncedAssets (world : FsTree) (home : Path)
    (sources : List ScanSource) : ScanReport :=
  let homePrompts := listPromptIdsFromRoot world home
  let homeSkills := listSkillIdsFromRoot world home
  let discovered := sources.flatMap (fun s =>
    discoverPromptsFromSource world s ++ discoverSkillsFromSource world s)
  let discoveredPrompts := uniqueAssets (discovered.filter (fun a => a.kind = .prompt))
  let discoveredSkills := uniqueAssets (discovered.filter (fun a => a.kind = .skill))
  let unsyncedPrompts := discoveredPrompts.filter
    (fun a => a.kind = .prompt ∧ ¬homePrompts.contains a.id)
  let unsyncedSkills := discoveredSkills.filter
    (fun a => a.kind = .skill ∧ ¬homeSkills.contains a.id)
  { home := home, scannedSources := sources.map (fun s => s.root),
    discoveredPrompts := discoveredPrompts, discoveredSkills := discoveredSkills,
    unsyncedPrompts := uniqueAssets unsyncedPrompts,
    unsyncedSkills := uniqueAssets unsyncedSkills }

/-- Replace the first entry with the given name, or append a new one. -/
def FsEntries.setEntry : FsEntries → String → FsTree → FsEntries
  | .nil, n, node => .cons n node .nil
  | .cons m c rest, n, node =>
      if m = n then .cons m node rest else .cons m c (rest.setEntry n node)

/-- Remove the first entry with the given name. -/
def FsEntries.removeEntry : FsEntries → String → FsEntries
  | .nil, _ => .nil
  | .cons m c rest, n => if m = n then rest else .cons m c (rest.removeEntry n)

/-- Write a node at a path, creating intermediate directories.  (A
non-directory on the way would make the real `fs.mkdir` fail; no theorem
below exercises that corner, where the model overwrites.) -/
def setPath : Path → FsTree → FsTree → FsTree
  | [], node, _ => node
  | seg :: rest, node, .dir es =>
      let child := match es.find seg with
        | some c => c
        | none => .dir .nil
      .dir (es.setEntry seg (setPath rest node child))
  | seg :: rest, node, .file _ =>
      .dir (FsEntries.setEntry .nil seg (setPath rest node (.dir .nil)))

/-- `fs.mkdir(p, { recursive: true })`. -/
def mkdirp : Path → FsTree → FsTree
  | [], t => t
  | seg :: rest, .dir es =>
      let child := match es.find seg with
        | some c => c
        | none => .dir .nil
      .dir (es.setEntry seg (mkdirp rest child))
  | seg :: rest, .file _ =>
      .dir (FsEntries.setEntry .nil seg (mkdirp rest (.dir .nil)))

/-- `fs.rm(p, { recursive: true, force: true })`. -/
def removePath : Path → FsTree → FsTree
  | [], t => t
  | [seg], .dir es => .dir (es.removeEntry seg)
  | seg :: rest, .dir es =>
      match es.find seg with
      | some c => .dir (es.setEntry seg (removePath rest c))
      | none => .dir es
  | _ :: _, .file c => .file c

/-- `copyFile` from `assets.ts`: existence check first, then
`mkdir -p` of the parent, then the copy.  The returned tree is the
filesystem state at return or at throw — in the no-overwrite failure the
check precedes every mutation, so the input state is returned as is. -/
def copyFileFs (world : FsTree) (target source : Path) (force : Bool) :
    FsTree × Except String Unit :=
  if pathExists world target ∧ ¬force then
    (world,
     .error ("Target " ++ "already exists" ++ ": " ++ joinPath target ++
       ". Use --force to overwrite."))
  else
    let w1 := mkdirp target.dropLast world
    match lookupPath source w1 with
    | some (.file c) => (setPath target (.file c) w1, .ok ())
    | some (.dir _) => (w1, .error ("EISDIR: " ++ joinPath source))
    | none => (w1, .error ("ENOENT: " ++ joinPath source))

/-- `copyDirectory` from `assets.ts`: existence check, then removal when
overwriting, then `mkdir -p` of the parent, then a recursive copy. -/
def copyDirectoryFs (world : FsTree) (target source : Path) (force : Bool) :
    FsTree × Except String Unit :=
  if pathExists world target ∧ ¬force then
    (world,
     .error ("Target " ++ "already exists" ++ ": " ++ joinPath target ++
       ". Use --force to overwrite."))
  else
    let w1 := if pathExists world target then removePath target world else world
    let w2 := mkdirp target.dropLast w1
    match lookupPath source w2 with
    | some node => (setPath target node w2, .ok ())
    | none => (w2, .error ("ENOENT: " ++ joinPath source))

/-- `importDiscoveredAssetToHome` from `assets.ts`: copy the discovered
asset to its canonical home path, returning that path. -/
def importDiscoveredAssetToHome (world : FsTree) (home : Path)
    (asset : DiscoveredAsset) (force : Bool) : FsTree × Except String Path :=
  match asset.kind with
  | .prompt =>
      let target := home ++ "prompts" :: splitSlash (asset.id ++ ".md")
      let r := copyFileFs world target asset.path force
      (r.1, r.2.map (fun _ => target))
  | .skill =>
      let target := home ++ "skills" :: splitSlash asset.id
      let r := copyDirectoryFs world target asset.path force
      (r.1, r.2.map (fun _ => target))

/-- WHATWG UTF-8 decode with U+FFFD replacement, the semantics of Node's
`fs.readFile(path, "utf8")` on arbitrary bytes; bytes and code points as
naturals.  An ill-formed byte is replaced and the walk reconsumes at the
offending byte, per the spec's "maximal subpart" rule. -/
def decodeUtf8 : List Nat → List Nat
  | [] => []
  | b :: rest =>
    if b ≤ 0x7F then b :: decodeUtf8 rest
    else if 0xC2 ≤ b ∧ b ≤ 0xDF then
      match rest with
      | [] => [0xFFFD]
      | c :: rest2 =>
        if 0x80 ≤ c ∧ c ≤ 0xBF then
          ((b - 0xC0) * 64 + (c - 0x80)) :: decodeUtf8 rest2
        else 0xFFFD :: decodeUtf8 (c :: rest2)
    else if 0xE0 ≤ b ∧ b ≤ 0xEF then
      match rest with
      | [] => [0xFFFD]
      | c1 :: rest2 =>
        if (if b = 0xE0 then 0xA0 else 0x80) ≤ c1 ∧
            c1 ≤ (if b = 0xED then 0x9F else 0xBF) then
          match rest2 with
          | [] => [0xFFFD]
          | c2 :: rest3 =>
            if 0x80 ≤ c2 ∧ c2 ≤ 0xBF then
              ((b - 0xE0) * 4096 + (c1 - 0x80) * 64 + (c2 - 0x80)) ::
                decodeUtf8 rest3
            else 0xFFFD :: decodeUtf8 (c2 :: rest3)
        else 0xFFFD :: decodeUtf8 (c1 :: rest2)
    else if 0xF0 ≤ b ∧ b ≤ 0xF4 then
      match rest with
      | [] => [0xFFFD]
      | c1 :: rest2 =>
        if (if b = 0xF0 then 0x90 else 0x80) ≤ c1 ∧
            c1 ≤ (if b = 0xF4 then 0x8F else 0xBF) then
          match rest2 with
          | [] => [0xFFFD]
          | c2 :: rest3 =>
            if 0x80 ≤ c2 ∧ c2 ≤ 0xBF then
              match rest3 with
              | [] => [0xFFFD]
              | c3 :: rest4 =>
                if 0x80 ≤ c3 ∧ c3 ≤ 0xBF then
                  ((b - 0xF0) * 262144 + (c1 - 0x80) * 4096 +
                    (c2 - 0x80) * 64 + (c3 - 0x80)) :: decodeUtf8 rest4
                else 0xFFFD :: decodeUtf8 (c3 :: rest4)
            else 0xFFFD :: decodeUtf8 (c2 :: rest3)
        else 0xFFFD :: decodeUtf8 (c1 :: rest2)
    else 0xFFFD :: decodeUtf8 rest

/-- The byte sequence is well-formed UTF-8. -/
def validUtf8 : List Nat → Bool
  | [] => true
  | b :: rest =>
    if b ≤ 0x7F then validUtf8 rest
    else if 0xC2 ≤ b ∧ b ≤ 0xDF then
      match rest with
      | [] => false
      | c :: rest2 => (decide (0x80 ≤ c ∧ c ≤ 0xBF)) && validUtf8 rest2
    else if 0xE0 ≤ b ∧ b ≤ 0xEF then
      match rest with
      | c1 :: c2 :: rest3 =>
          (decide ((if b = 0xE0 then 0xA0 else 0x80) ≤ c1 ∧
            c1 ≤ (if b = 0xED then 0x9F else 0xBF))) &&
          (decide (0x80 ≤ c2 ∧ c2 ≤ 0xBF)) && validUtf8 rest3
      | _ => false
    else if 0xF0 ≤ b ∧ b ≤ 0xF4 then
      match rest with
      | c1 :: c2 :: c3 :: rest4 =>
          (decide ((if b = 0xF0 then 0x90 else 0x80) ≤ c1 ∧
            c1 ≤ (if b = 0xF4 then 0x8F else 0xBF))) &&
          (decide (0x80 ≤ c2 ∧ c2 ≤ 0xBF)) &&
          (decide (0x80 ≤ c3 ∧ c3 ≤ 0xBF)) && validUtf8 rest4
      | _ => false
    else false

/-- UTF-8 encoding of one code point, the byte form `hash.update(string)`
feeds to the hasher. -/
def encodeChar (cp : Nat) : List Nat :=
  if cp ≤ 0x7F then [cp]
  else if cp ≤ 0x7FF then [0xC0 + cp / 64, 0x80 + cp % 64]
  else if cp ≤ 0xFFFF then
    [0xE0 + cp / 4096, 0x80 + cp / 64 % 64, 0x80 + cp % 64]
  else
    [0xF0 + cp / 262144, 0x80 + cp / 4096 % 64, 0x80 + cp / 64 % 64,
     0x80 + cp % 64]

/-- UTF-8 encoding of a code-point sequence. -/
def encodeUtf8 (cps : List Nat) : List Nat :=
  cps.flatMap encodeChar

/-- The byte stream Node hashes for a prompt file with the given on-disk
bytes: `fs.readFile(path, "utf8")` decodes lossily and
`createHash("sha256").update(content)` re-encodes as UTF-8.  In the
injective-hash model the prompt digest IS this stream. -/
def promptDigestOfBytes (bytes : List Nat) : List Nat :=
  encodeUtf8 (decodeUtf8 bytes)


/-! ### Helper lemmas: sorting -/

theorem mem_insertSorted (le : α → α → Bool) (x a : α) (l : List α) :
    a ∈ insertSorted le x l ↔ a = x ∨ a ∈ l := by
  induction l with
  | nil => simp [insertSorted]
  | cons y ys ih =>
      by_cases h : le x y = true
      · simp [insertSorted, h]
      · simp only [insertSorted, if_neg h, List.mem_cons, ih]
        tauto

theorem perm_insertSorted (le : α → α → Bool) (x : α) (l : List α) :
    List.Perm (insertSorted le x l) (x :: l) := by
  induction l with
  | nil => simp [insertSorted]
  | cons y ys ih =>
      by_cases h : le x y = true
      · simp [insertSorted, h]
      · simp only [insertSorted, if_neg h]
        exact (ih.cons y).trans (List.Perm.swap x y ys)

theorem perm_sortByLe (le : α → α → Bool) (l : List α) :
    List.Perm (sortByLe le l) l := by
  induction l with
  | nil => simp [sortByLe]
  | cons x xs ih =>
      exact (perm_insertSorted le x (sortByLe le xs)).trans (ih.cons x)

theorem pairwise_insertSorted (le : α → α → Bool)
    (htot : ∀ a b, le a b = true ∨ le b a = true)
    (htrans : ∀ a b c, le a b = true → le b c = true → le a c = true)
    (x : α) (l : List α) (h : l.Pairwise (fun a b => le a b = true)) :
    (insertSorted le x l).Pairwise (fun a b => le a b = true) := by
  induction l with
  | nil => simp [insertSorted]
  | cons y ys ih =>
      rcases List.pairwise_cons.mp h with ⟨hy, hys⟩
      by_cases hxy : le x y = true
      · simp only [insertSorted, if_pos hxy]
        refine List.pairwise_cons.mpr ⟨?_, h⟩
        intro b hb
        rcases List.mem_cons.mp hb with rfl | hb
        · exact hxy
        · exact htrans x y b hxy (hy b hb)
      · simp only [insertSorted, if_neg hxy]
        refine List.pairwise_cons.mpr ⟨?_, ih hys⟩
        intro b hb
        rcases (mem_insertSorted le x b ys).mp hb with hbx | hb
        · subst hbx
          exact (htot b y).resolve_left hxy
        · exact hy b hb

theorem pairwise_sortByLe (le : α → α → Bool)
    (htot : ∀ a b, le a b = true ∨ le b a = true)
    (htrans : ∀ a b c, le a b = true → le b c = true → le a c = true)
    (l : List α) : (sortByLe le l).Pairwise (fun a b => le a b = true) := by
  induction l with
  | nil => simp [sortByLe]
  | cons x xs ih => exact pairwise_insertSorted le htot htrans x _ ih

theorem eq_of_perm_of_pairwise {r : α → α → Prop} :
    ∀ {l₁ l₂ : List α}, List.Perm l₁ l₂ → l₁.Pairwise r → l₂.Pairwise r →
      (∀ a ∈ l₁, ∀ b ∈ l₁, r a b → r b a → a = b) → l₁ = l₂
  | [], [], _, _, _, _ => rfl
  | [], b :: t₂, hp, _, _, _ => absurd hp (by simp)
  | a :: t₁, [], hp, _, _, _ => absurd hp (by simp)
  | a :: t₁, b :: t₂, hp, hs₁, hs₂, hanti => by
      have hab : a = b := by
        by_contra hne
        have hbmem : b ∈ a :: t₁ := hp.mem_iff.mpr (by simp)
        have hamem : a ∈ b :: t₂ := hp.mem_iff.mp (by simp)
        have hb₁ : b ∈ t₁ := by
          rcases List.mem_cons.mp hbmem with h | h
          · exact absurd h.symm hne
          · exact h
        have ha₂ : a ∈ t₂ := by
          rcases List.mem_cons.mp hamem with h | h
          · exact absurd h hne
          · exact h
        have hrab : r a b := (List.pairwise_cons.mp hs₁).1 b hb₁
        have hrba : r b a := (List.pairwise_cons.mp hs₂).1 a ha₂
        exact hne (hanti a (by simp) b (List.mem_cons_of_mem a hb₁) hrab hrba)
      subst hab
      have htail : List.Perm t₁ t₂ := (List.perm_cons a).mp hp
      have := eq_of_perm_of_pairwise htail
        (List.pairwise_cons.mp hs₁).2 (List.pairwise_cons.mp hs₂).2
        (fun x hx y hy => hanti x (List.mem_cons_of_mem a hx)
          y (List.mem_cons_of_mem a hy))
      exact congrArg (a :: ·) this

/-! ### Helper lemmas: deduplication -/

theorem mem_dedupFirstAux [DecidableEq α] (l : List α) :
    ∀ (seen : List α) (a : α), a ∈ dedupFirstAux seen l ↔ a ∈ l ∧ a ∉ seen := by
  induction l with
  | nil => intro seen a; simp [dedupFirstAux]
  | cons x xs ih =>
      intro seen a
      by_cases hx : x ∈ seen
      · rw [dedupFirstAux, if_pos hx, ih seen a]
        constructor
        · rintro ⟨h1, h2⟩; exact ⟨List.mem_cons_of_mem x h1, h2⟩
        · rintro ⟨h1, h2⟩
          rcases List.mem_cons.mp h1 with rfl | h1
          · exact absurd hx h2
          · exact ⟨h1, h2⟩
      · rw [dedupFirstAux, if_neg hx]
        simp only [List.mem_cons, ih (x :: seen) a, List.mem_cons]
        constructor
        · rintro (rfl | ⟨h1, h2⟩)
          · exact ⟨Or.inl rfl, hx⟩
          · exact ⟨Or.inr h1, fun hs => h2 (Or.inr hs)⟩
        · rintro ⟨rfl | h1, h2⟩
          · exact Or.inl rfl
          · by_cases hax : a = x
            · exact Or.inl hax
            · exact Or.inr ⟨h1, fun hs => (hs.elim hax h2)⟩

theorem mem_dedupFirst [DecidableEq α] (l : List α) (a : α) :
    a ∈ dedupFirst l ↔ a ∈ l := by
  simp [dedupFirst, mem_dedupFirstAux]

theorem nodup_dedupFirstAux [DecidableEq α] (l : List α) :
    ∀ seen : List α, (dedupFirstAux seen l).Nodup := by
  induction l with
  | nil => intro seen; simp [dedupFirstAux]
  | cons x xs ih =>
      intro seen
      by_cases hx : x ∈ seen
      · rw [dedupFirstAux, if_pos hx]; exact ih seen
      · rw [dedupFirstAux, if_neg hx]
        refine List.nodup_cons.mpr ⟨?_, ih (x :: seen)⟩
        intro hmem
        exact ((mem_dedupFirstAux xs (x :: seen) x).mp hmem).2 (by simp)

theorem nodup_dedupFirst [DecidableEq α] (l : List α) : (dedupFirst l).Nodup :=
  nodup_dedupFirstAux l []

theorem dedupFirstAux_eq_singleton [DecidableEq α] (l : List α) :
    ∀ (seen : List α) (x : α), dedupFirstAux seen l = [x] →
      ∀ y ∈ l, y ∈ seen ∨ y = x := by
  induction l with
  | nil => intro seen x h y hy; cases hy
  | cons z zs ih =>
      intro seen x h y hy
      by_cases hz : z ∈ seen
      · rw [dedupFirstAux, if_pos hz] at h
        rcases List.mem_cons.mp hy with rfl | hy
        · exact Or.inl hz
        · exact ih seen x h y hy
      · rw [dedupFirstAux, if_neg hz] at h
        have hzx : z = x := (List.cons_eq_cons.mp h).1
        have hnil : dedupFirstAux (z :: seen) zs = [] := (List.cons_eq_cons.mp h).2
        rcases List.mem_cons.mp hy with rfl | hy
        · exact Or.inr hzx
        · have hnc : ¬(y ∈ zs ∧ y ∉ z :: seen) := by
            intro hc
            have := (mem_dedupFirstAux zs (z :: seen) y).mpr hc
            simp [hnil] at this
          by_cases hys : y ∈ z :: seen
          · rcases List.mem_cons.mp hys with rfl | hys
            · exact Or.inr hzx
            · exact Or.inl hys
          · exact absurd ⟨hy, hys⟩ hnc

theorem dedupFirst_eq_singleton [DecidableEq α] {l : List α} {x : α}
    (h : dedupFirst l = [x]) : ∀ y ∈ l, y = x := by
  intro y hy
  rcases dedupFirstAux_eq_singleton l [] x h y hy with h' | h'
  · cases h'
  · exact h'

theorem dedupFirst_ne_nil [DecidableEq α] {l : List α} (h : l ≠ []) :
    dedupFirst l ≠ [] := by
  intro hc
  rcases l with _ | ⟨x, xs⟩
  · exact h rfl
  · have : x ∈ dedupFirst (x :: xs) := (mem_dedupFirst _ x).mpr (by simp)
    simp [hc] at this

/-! ### Helper lemmas: `mapME` -/

theorem mapME_ok_iff {f : α → Except ε β} :
    ∀ {l : List α} {ys : List β},
      mapME f l = .ok ys ↔ List.Forall₂ (fun x y => f x = .ok y) l ys := by
  intro l
  induction l with
  | nil =>
      intro ys
      constructor
      · intro h
        cases ys with
        | nil => exact List.Forall₂.nil
        | cons y ys => simp [mapME] at h
      · intro h; cases h; rfl
  | cons x xs ih =>
      intro ys
      constructor
      · intro h
        rw [mapME] at h
        cases hfx : f x with
        | error e => rw [hfx] at h; cases h
        | ok y =>
            rw [hfx] at h
            cases hrest : mapME f xs with
            | error e => rw [hrest] at h; cases h
            | ok zs =>
                rw [hrest] at h
                cases h
                exact List.Forall₂.cons hfx (ih.mp hrest)
      · intro h
        cases h with
        | cons hfx hrest =>
            rw [mapME, hfx, ih.mpr hrest]

theorem forall₂_mem_right {R : α → β → Prop} {l : List α} {ys : List β}
    (h : List.Forall₂ R l ys) {b : β} (hb : b ∈ ys) : ∃ a ∈ l, R a b := by
  induction h with
  | nil => cases hb
  | cons hR hrest ih =>
      rcases List.mem_cons.mp hb with rfl | hb
      · exact ⟨_, by simp, hR⟩
      · rcases ih hb with ⟨a, ha, haR⟩
        exact ⟨a, List.mem_cons_of_mem _ ha, haR⟩

theorem forall₂_mem_left {R : α → β → Prop} {l : List α} {ys : List β}
    (h : List.Forall₂ R l ys) {a : α} (ha : a ∈ l) : ∃ b ∈ ys, R a b := by
  induction h with
  | nil => cases ha
  | cons hR hrest ih =>
      rcases List.mem_cons.mp ha with rfl | ha
      · exact ⟨_, by simp, hR⟩
      · rcases ih ha with ⟨b, hb, hbR⟩
        exact ⟨b, List.mem_cons_of_mem _ hb, hbR⟩

/-! ### Helper lemmas: grouping -/

theorem dedupFirstAux_append_singleton [DecidableEq α] (l : List α) :
    ∀ (seen : List α) (x : α),
      dedupFirstAux seen (l ++ [x]) =
        if x ∈ seen ∨ x ∈ l then dedupFirstAux seen l
        else dedupFirstAux seen l ++ [x] := by
  induction l with
  | nil =>
      intro seen x
      by_cases hx : x ∈ seen
      · simp [dedupFirstAux, hx]
      · simp [dedupFirstAux, hx]
  | cons z zs ih =>
      intro seen x
      by_cases hz : z ∈ seen
      · rw [List.cons_append, dedupFirstAux, if_pos hz, dedupFirstAux, if_pos hz,
          ih seen x]
        by_cases hx : x ∈ seen ∨ x ∈ zs
        · rw [if_pos hx, if_pos (by tauto)]
        · rw [if_neg hx, if_neg ?_]
          intro hc
          rcases hc with hc | hc
          · exact hx (Or.inl hc)
          · rcases List.mem_cons.mp hc with rfl | hc
            · exact hx (Or.inl hz)
            · exact hx (Or.inr hc)
      · rw [List.cons_append, dedupFirstAux, if_neg hz, dedupFirstAux, if_neg hz,
          ih (z :: seen) x]
        by_cases hx : x ∈ z :: seen ∨ x ∈ zs
        · rw [if_pos hx, if_pos ?_]
          · rcases hx with hx | hx
            · rcases List.mem_cons.mp hx with rfl | hx
              · exact Or.inr (by simp)
              · exact Or.inl hx
            · exact Or.inr (List.mem_cons_of_mem z hx)
        · rw [if_neg hx, if_neg ?_, List.cons_append]
          intro hc
          rcases hc with hc | hc
          · exact hx (Or.inl (List.mem_cons_of_mem z hc))
          · rcases List.mem_cons.mp hc with rfl | hc
            · exact hx (Or.inl (by simp))
            · exact hx (Or.inr hc)

theorem dedupFirst_append_singleton [DecidableEq α] (l : List α) (x : α) :
    dedupFirst (l ++ [x]) =
      if x ∈ l then dedupFirst l else dedupFirst l ++ [x] := by
  rw [dedupFirst, dedupFirstAux_append_singleton l [] x]
  simp [dedupFirst]

theorem filter_eq_nil_of_key_not_mem {l : List DiscoveredAsset}
    {k : AssetKind × String} (h : k ∉ l.map keyOf) :
    l.filter (fun a => decide (keyOf a = k)) = [] := by
  rw [List.filter_eq_nil_iff]
  intro a ha
  simp only [decide_eq_true_eq]
  intro hk
  exact h (List.mem_map.mpr ⟨a, ha, hk⟩)

theorem insertGrouped_mapform_mem
    (f : AssetKind × String → List DiscoveredAsset)
    (key : AssetKind × String) (a : DiscoveredAsset) :
    ∀ ks : List (AssetKind × String), ks.Nodup → key ∈ ks →
      insertGrouped (ks.map (fun k => (k, f k))) key a =
        ks.map (fun k => (k, if k = key then f k ++ [a] else f k)) := by
  intro ks
  induction ks with
  | nil => intro _ h; cases h
  | cons k0 ks ih =>
      intro hnd hmem
      rcases List.nodup_cons.mp hnd with ⟨hk0, hnd'⟩
      by_cases hk : k0 = key
      · subst hk
        rw [List.map_cons, insertGrouped, if_pos rfl, List.map_cons, if_pos rfl]
        congr 1
        refine (List.map_congr_left ?_).symm
        intro k hk
        have : k ≠ k0 := fun hc => hk0 (hc ▸ hk)
        rw [if_neg this]
      · have hmem' : key ∈ ks := by
          rcases List.mem_cons.mp hmem with h | h
          · exact absurd h.symm hk
          · exact h
        rw [List.map_cons, insertGrouped, if_neg hk, List.map_cons, if_neg hk,
          ih hnd' hmem']

theorem insertGrouped_mapform_notmem
    (f : AssetKind × String → List DiscoveredAsset)
    (key : AssetKind × String) (a : DiscoveredAsset) :
    ∀ ks : List (AssetKind × String), key ∉ ks →
      insertGrouped (ks.map (fun k => (k, f k))) key a =
        ks.map (fun k => (k, f k)) ++ [(key, [a])] := by
  intro ks
  induction ks with
  | nil => intro _; simp [insertGrouped]
  | cons k0 ks ih =>
      intro hmem
      have hk : k0 ≠ key := fun hc => hmem (hc ▸ List.mem_cons_self k0 ks)
      rw [List.map_cons, insertGrouped, if_neg hk,
        ih (fun hc => hmem (List.mem_cons_of_mem k0 hc))]
      rfl

theorem insertGrouped_map_form (seen : List DiscoveredAsset)
    (a : DiscoveredAsset) :
    insertGrouped ((dedupFirst (seen.map keyOf)).map
        (fun k => (k, seen.filter (fun b => decide (keyOf b = k))))) (keyOf a) a =
      (dedupFirst ((seen ++ [a]).map keyOf)).map
        (fun k => (k, (seen ++ [a]).filter (fun b => decide (keyOf b = k)))) := by
  have hfilter : ∀ k : AssetKind × String,
      (seen ++ [a]).filter (fun b => decide (keyOf b = k)) =
        seen.filter (fun b => decide (keyOf b = k)) ++
          (if keyOf a = k then [a] else []) := by
    intro k
    rw [List.filter_append]
    congr 1
    by_cases h : keyOf a = k
    · simp [h]
    · simp [h]
  simp only [List.map_append, List.map_cons, List.map_nil]
  rw [dedupFirst_append_singleton]
  by_cases hmem : keyOf a ∈ seen.map keyOf
  · rw [if_pos hmem]
    rw [insertGrouped_mapform_mem _ _ _ _ (nodup_dedupFirst _)
      ((mem_dedupFirst _ _).mpr hmem)]
    refine List.map_congr_left ?_
    intro k hk
    rw [hfilter k]
    by_cases hke : k = keyOf a
    · rw [if_pos hke, if_pos hke.symm]
    · rw [if_neg hke, if_neg (fun hc => hke hc.symm), List.append_nil]
  · rw [if_neg hmem]
    rw [insertGrouped_mapform_notmem _ _ _ _
      (fun hc => hmem ((mem_dedupFirst _ _).mp hc))]
    rw [List.map_append]
    congr 1
    · refine List.map_congr_left ?_
      intro k hk
      rw [hfilter k]
      have hke : keyOf a ≠ k := by
        intro hc
        exact hmem (hc ▸ (mem_dedupFirst _ _).mp hk)
      rw [if_neg hke, List.append_nil]
    · simp only [List.map_cons, List.map_nil]
      rw [hfilter (keyOf a), if_pos rfl,
        filter_eq_nil_of_key_not_mem hmem]
      rfl

theorem groupBy_foldl_spec (xs : List DiscoveredAsset) :
    ∀ seen : List DiscoveredAsset,
      xs.foldl (fun acc a => insertGrouped acc (keyOf a) a)
        ((dedupFirst (seen.map keyOf)).map
          (fun k => (k, seen.filter (fun b => decide (keyOf b = k))))) =
        (dedupFirst ((seen ++ xs).map keyOf)).map
          (fun k => (k, (seen ++ xs).filter (fun b => decide (keyOf b = k)))) := by
  induction xs with
  | nil => intro seen; simp
  | cons a xs ih =>
      intro seen
      rw [List.foldl_cons, insertGrouped_map_form seen a, ih (seen ++ [a]),
        List.append_assoc]
      rfl

theorem groupByKindAndId_eq (assets : List DiscoveredAsset) :
    groupByKindAndId assets =
      (dedupFirst (assets.map keyOf)).map
        (fun k => (k, assets.filter (fun a => decide (keyOf a = k)))) := by
  have := groupBy_foldl_spec assets []
  simpa [groupByKindAndId, dedupFirst, dedupFirstAux] using this

theorem mem_groupByKindAndId {assets : List DiscoveredAsset}
    {k : AssetKind × String} {g : List DiscoveredAsset} :
    (k, g) ∈ groupByKindAndId assets ↔
      k ∈ assets.map keyOf ∧
        g = assets.filter (fun a => decide (keyOf a = k)) := by
  rw [groupByKindAndId_eq, List.mem_map]
  constructor
  · rintro ⟨k', hk', hkg⟩
    have h1 : k' = k := congrArg Prod.fst hkg
    subst h1
    exact ⟨(mem_dedupFirst _ _).mp hk', (congrArg Prod.snd hkg).symm⟩
  · rintro ⟨hk, rfl⟩
    exact ⟨k, (mem_dedupFirst _ _).mpr hk, rfl⟩

/-! ### Helper lemmas: the reconciler pipeline -/

/-- The fingerprint hashes the discovered copies of one identity yield, in
discovery order; `ok` exactly when every copy fingerprints successfully. -/
def groupSourceHashes (world : FsTree) (includePreview : Bool)
    (g : List DiscoveredAsset) : Except String (List String) :=
  mapME (fun a => (fingerprintAsset world a.kind a.path includePreview).map
    (fun fp => fp.hash)) g

theorem pairsOk_hashes {world : FsTree} {ip : Bool} {g : List DiscoveredAsset}
    {fps : List (DiscoveredAsset × AssetFingerprint)}
    (h : mapME (fun a => (fingerprintAsset world a.kind a.path ip).map
      (fun fp => (a, fp))) g = .ok fps) :
    groupSourceHashes world ip g = .ok (fps.map (fun x => x.2.hash)) := by
  rw [mapME_ok_iff] at h
  rw [groupSourceHashes, mapME_ok_iff, List.forall₂_map_right_iff]
  refine h.imp ?_
  intro a y hy
  cases hfp : fingerprintAsset world a.kind a.path ip with
  | error e => rw [hfp] at hy; cases hy
  | ok fp =>
      rw [hfp] at hy
      cases hy
      rfl

theorem scanConflictForGroup_ok_elim {world : FsTree} {home : Path}
    {tr : List String} {d df : Bool} {kind : AssetKind} {id : String}
    {g : List DiscoveredAsset} {c : ScanConflict}
    (h : scanConflictForGroup world home tr d df kind id g = .ok c) :
    ∃ fps hf,
      mapME (fun a => (fingerprintAsset world a.kind a.path df).map
        (fun fp => (a, fp))) g = .ok fps ∧
      homeFingerprintE world home kind id df = .ok hf ∧
      c.kind = kind ∧ c.id = id ∧
      c.state = (classifyGroup fps hf (homeTrackedOf tr kind id) kind df).1 := by
  unfold scanConflictForGroup at h
  split at h
  · cases h
  next fps hfps =>
    split at h
    · cases h
    next hf hhf =>
      cases h
      exact ⟨fps, hf, hfps, hhf, rfl, rfl, rfl⟩

theorem buildScanConflicts_ok_elim {world : FsTree} {home : Path}
    {tr : List String} {d df : Bool} {assets : List DiscoveredAsset}
    {cs : List ScanConflict}
    (h : buildScanConflicts world home tr d df assets = .ok cs) :
    ∃ pre,
      mapME (fun g => scanConflictForGroup world home tr d df g.1.1 g.1.2 g.2)
        (groupByKindAndId assets) = .ok pre ∧
      cs = sortByLe conflictLe pre := by
  unfold buildScanConflicts at h
  split at h
  · cases h
  next pre hpre =>
    cases h
    exact ⟨pre, hpre, rfl⟩

theorem mem_buildScanConflicts_ok {world : FsTree} {home : Path}
    {tr : List String} {d df : Bool} {assets : List DiscoveredAsset}
    {cs : List ScanConflict} {c : ScanConflict}
    (h : buildScanConflicts world home tr d df assets = .ok cs) (hc : c ∈ cs) :
    ∃ k g, (k, g) ∈ groupByKindAndId assets ∧
      scanConflictForGroup world home tr d df k.1 k.2 g = .ok c := by
  rcases buildScanConflicts_ok_elim h with ⟨pre, hpre, rfl⟩
  have hc' : c ∈ pre := (perm_sortByLe conflictLe pre).mem_iff.mp hc
  rcases forall₂_mem_right (mapME_ok_iff.mp hpre) hc' with ⟨⟨k, g⟩, hkg, hok⟩
  exact ⟨k, g, hkg, hok⟩

theorem buildScanConflicts_covers {world : FsTree} {home : Path}
    {tr : List String} {d df : Bool} {assets : List DiscoveredAsset}
    {cs : List ScanConflict} {k : AssetKind × String} {g : List DiscoveredAsset}
    (h : buildScanConflicts world home tr d df assets = .ok cs)
    (hg : (k, g) ∈ groupByKindAndId assets) :
    ∃ c ∈ cs, scanConflictForGroup world home tr d df k.1 k.2 g = .ok c := by
  rcases buildScanConflicts_ok_elim h with ⟨pre, hpre, rfl⟩
  rcases forall₂_mem_left (mapME_ok_iff.mp hpre) hg with ⟨c, hcpre, hok⟩
  exact ⟨c, (perm_sortByLe conflictLe pre).mem_iff.mpr hcpre, hok⟩

/-! ### Helper lemmas: classification states -/

theorem classifyGroup_ambiguous
    {fps : List (DiscoveredAsset × AssetFingerprint)}
    (hf : Option AssetFingerprint) (tracked : Bool) (kind : AssetKind)
    (df : Bool) (h : 1 < (dedupFirst (fps.map (fun x => x.2.hash))).length) :
    (classifyGroup fps hf tracked kind df).1 = .ambiguousMultiSource := by
  rw [classifyGroup.eq_def]
  simp only [if_pos h]

theorem classifyGroup_single_mismatch
    {fps : List (DiscoveredAsset × AssetFingerprint)} {p0 : DiscoveredAsset × AssetFingerprint}
    {hfp : AssetFingerprint} {h0 : String}
    (tracked : Bool) (kind : AssetKind) (df : Bool)
    (hone : dedupFirst (fps.map (fun x => x.2.hash)) = [h0])
    (hhead : fps.head? = some p0)
    (hne : p0.2.hash ≠ hfp.hash) :
    (classifyGroup fps (some hfp) tracked kind df).1 =
      if tracked then .contentDrift else .homeModifiedUntracked := by
  rw [classifyGroup.eq_def]
  simp only [hone, List.length_cons, List.length_nil, hhead]
  rw [if_neg (by omega)]
  rcases p0 with ⟨a0, fp0⟩
  rw [if_pos hne]

theorem classifyGroup_single_match
    {fps : List (DiscoveredAsset × AssetFingerprint)} {p0 : DiscoveredAsset × AssetFingerprint}
    {hfp : AssetFingerprint} {h0 : String}
    (tracked : Bool) (kind : AssetKind) (df : Bool)
    (hone : dedupFirst (fps.map (fun x => x.2.hash)) = [h0])
    (hhead : fps.head? = some p0)
    (heq : p0.2.hash = hfp.hash) :
    (classifyGroup fps (some hfp) tracked kind df).1 =
      if tracked then .noConflict else .homeUntracked := by
  rw [classifyGroup.eq_def]
  simp only [hone, List.length_cons, List.length_nil, hhead]
  rw [if_neg (by omega)]
  rcases p0 with ⟨a0, fp0⟩
  simp only at heq
  simp only
  rw [if_neg (by simpa using heq)]
  by_cases ht : tracked = true
  · simp [ht]
  · simp [ht]

theorem group_exists_of_hashes {world : FsTree} {df : Bool}
    {assets : List DiscoveredAsset} {kind : AssetKind} {id : String}
    {hs : List String}
    (hhs : groupSourceHashes world df
      (assets.filter (fun a => decide (keyOf a = (kind, id)))) = .ok hs)
    (hne : hs ≠ []) :
    ((kind, id), assets.filter (fun a => decide (keyOf a = (kind, id)))) ∈
      groupByKindAndId assets := by
  refine mem_groupByKindAndId.mpr ⟨?_, rfl⟩
  have hlen := (mapME_ok_iff.mp hhs).length_eq
  have : assets.filter (fun a => decide (keyOf a = (kind, id))) ≠ [] := by
    intro hc
    rw [hc] at hlen
    exact hne (List.length_eq_zero.mp hlen.symm)
  rcases List.exists_mem_of_ne_nil _ this with ⟨a, ha⟩
  have := List.mem_filter.mp ha
  rcases this with ⟨hmem, hkeq⟩
  have : keyOf a = (kind, id) := of_decide_eq_true hkeq
  exact this ▸ List.mem_map.mpr ⟨a, hmem, rfl⟩

theorem state_of_conflict_for_key {world : FsTree} {home : Path}
    {tracked : List String} {d df : Bool} {assets : List DiscoveredAsset}
    {kind : AssetKind} {id : String} {cs : List ScanConflict}
    {c : ScanConflict}
    (hok : buildScanConflicts world home tracked d df assets = .ok cs)
    (hc : c ∈ cs) (hck : c.kind = kind) (hci : c.id = id) :
    ∃ fps hf,
      mapME (fun a => (fingerprintAsset world a.kind a.path df).map
          (fun fp => (a, fp)))
        (assets.filter (fun a => decide (keyOf a = (kind, id)))) = .ok fps ∧
      homeFingerprintE world home kind id df = .ok hf ∧
      c.state = (classifyGroup fps hf (homeTrackedOf tracked kind id) kind df).1 := by
  rcases mem_buildScanConflicts_ok hok hc with ⟨k, g, hkg, hok'⟩
  rcases scanConflictForGroup_ok_elim hok' with ⟨fps, hf, hfps, hhf, hk, hi, hst⟩
  have hkey : k = (kind, id) := by
    rcases k with ⟨k1, k2⟩
    have h1 : k1 = kind := hk.symm.trans hck
    have h2 : k2 = id := hi.symm.trans hci
    rw [h1, h2]
  subst hkey
  have hg : g = assets.filter (fun a => decide (keyOf a = (kind, id))) :=
    (mem_groupByKindAndId.mp hkg).2
  subst hg
  exact ⟨fps, hf, hfps, hhf, hst⟩

/-- C1: for an identity whose discovered sources yield two or more
distinct fingerprints, `buildScanConflicts` reports that identity and
classifies it `ambiguous-multi-source`, whatever the home copy's
existence, content or tracked status — this branch precedes all others. -/
theorem buildScanConflicts_multi_hash_ambiguous
    (world : FsTree) (home : Path) (tracked : List String)
    (includeDiff includeDiffFull : Bool) (assets : List DiscoveredAsset)
    (kind : AssetKind) (id : String) (cs : List ScanConflict) (hs : List String)
    (hok : buildScanConflicts world home tracked includeDiff includeDiffFull
      assets = .ok cs)
    (hhs : groupSourceHashes world includeDiffFull
      (assets.filter (fun a => decide (keyOf a = (kind, id)))) = .ok hs)
    (hdist : 2 ≤ (dedupFirst hs).length) :
    (∃ c ∈ cs, c.kind = kind ∧ c.id = id) ∧
      ∀ c ∈ cs, c.kind = kind → c.id = id →
        c.state = .ambiguousMultiSource := by
  have hne : hs ≠ [] := by
    intro hc
    subst hc
    simp [dedupFirst, dedupFirstAux] at hdist
  constructor
  · rcases buildScanConflicts_covers hok (group_exists_of_hashes hhs hne) with
      ⟨c, hc, hok'⟩
    rcases scanConflictForGroup_ok_elim hok' with ⟨_, _, _, _, hk, hi, _⟩
    exact ⟨c, hc, hk, hi⟩
  · intro c hc hck hci
    rcases state_of_conflict_for_key hok hc hck hci with ⟨fps, hf, hfps, _, hst⟩
    have hhashes := pairsOk_hashes hfps
    rw [hhs] at hhashes
    have hseq : hs = fps.map (fun x => x.2.hash) := by
      injection hhashes
    rw [hst]
    exact classifyGroup_ambiguous hf _ kind includeDiffFull (by
      rw [← hseq]; omega)

/-- C2: for an identity with exactly one distinct source fingerprint whose
home copy exists with a differing fingerprint, `buildScanConflicts`
classifies it `content-drift` when the home copy is git-tracked and
`home-modified-untracked` when it is not. -/
theorem buildScanConflicts_mismatch_drift_or_untracked
    (world : FsTree) (home : Path) (tracked : List String)
    (includeDiff includeDiffFull : Bool) (assets : List DiscoveredAsset)
    (kind : AssetKind) (id : String) (cs : List ScanConflict)
    (hs : List String) (h0 : String) (hfp : AssetFingerprint)
    (hok : buildScanConflicts world home tracked includeDiff includeDiffFull
      assets = .ok cs)
    (hhs : groupSourceHashes world includeDiffFull
      (assets.filter (fun a => decide (keyOf a = (kind, id)))) = .ok hs)
    (hone : dedupFirst hs = [h0])
    (hhome : pathExists world (home ++ homeRelPath kind id) = true)
    (hhfp : fingerprintAsset world kind (home ++ homeRelPath kind id)
      includeDiffFull = .ok hfp)
    (hdiff : hfp.hash ≠ h0) :
    (∃ c ∈ cs, c.kind = kind ∧ c.id = id) ∧
      ∀ c ∈ cs, c.kind = kind → c.id = id →
        c.state = if homeTrackedOf tracked kind id then .contentDrift
          else .homeModifiedUntracked := by
  have hne : hs ≠ [] := by
    intro hc
    subst hc
    simp [dedupFirst, dedupFirstAux] at hone
  constructor
  · rcases buildScanConflicts_covers hok (group_exists_of_hashes hhs hne) with
      ⟨c, hc, hok'⟩
    rcases scanConflictForGroup_ok_elim hok' with ⟨_, _, _, _, hk, hi, _⟩
    exact ⟨c, hc, hk, hi⟩
  · intro c hc hck hci
    rcases state_of_conflict_for_key hok hc hck hci with ⟨fps, hf, hfps, hhf, hst⟩
    have hhashes := pairsOk_hashes hfps
    rw [hhs] at hhashes
    have hseq : hs = fps.map (fun x => x.2.hash) := by injection hhashes
    have hfeq : hf = some hfp := by
      rw [homeFingerprintE, if_pos hhome, hhfp] at hhf
      injection hhf with h
      exact h.symm
    subst hfeq
    cases hfpsl : fps with
    | nil =>
        subst hfpsl
        simp [hseq] at hne
    | cons p0 rest =>
        have hhead : fps.head? = some p0 := by rw [hfpsl]; rfl
        have hp0 : p0.2.hash = h0 := by
          refine dedupFirst_eq_singleton (hseq ▸ hone) p0.2.hash ?_
          rw [hfpsl]
          exact List.mem_map.mpr ⟨p0, by simp, rfl⟩
        rw [hst]
        exact classifyGroup_single_mismatch _ kind includeDiffFull
          (hseq ▸ hone) hhead (by rw [hp0]; exact fun hc => hdiff hc.symm)

/-- C3 (amended): for an identity with exactly one distinct source
fingerprint whose home copy exists with the same fingerprint,
`buildScanConflicts` classifies it `no-conflict` when the home copy is
git-tracked and `home-untracked` when it is not. -/
theorem buildScanConflicts_match_tracked_dependent
    (world : FsTree) (home : Path) (tracked : List String)
    (includeDiff includeDiffFull : Bool) (assets : List DiscoveredAsset)
    (kind : AssetKind) (id : String) (cs : List ScanConflict)
    (hs : List String) (h0 : String) (hfp : AssetFingerprint)
    (hok : buildScanConflicts world home tracked includeDiff includeDiffFull
      assets = .ok cs)
    (hhs : groupSourceHashes world includeDiffFull
      (assets.filter (fun a => decide (keyOf a = (kind, id)))) = .ok hs)
    (hone : dedupFirst hs = [h0])
    (hhome : pathExists world (home ++ homeRelPath kind id) = true)
    (hhfp : fingerprintAsset world kind (home ++ homeRelPath kind id)
      includeDiffFull = .ok hfp)
    (heq : hfp.hash = h0) :
    (∃ c ∈ cs, c.kind = kind ∧ c.id = id) ∧
      ∀ c ∈ cs, c.kind = kind → c.id = id →
        c.state = if homeTrackedOf tracked kind id then .noConflict
          else .homeUntracked := by
  have hne : hs ≠ [] := by
    intro hc
    subst hc
    simp [dedupFirst, dedupFirstAux] at hone
  constructor
  · rcases buildScanConflicts_covers hok (group_exists_of_hashes hhs hne) with
      ⟨c, hc, hok'⟩
    rcases scanConflictForGroup_ok_elim hok' with ⟨_, _, _, _, hk, hi, _⟩
    exact ⟨c, hc, hk, hi⟩
  · intro c hc hck hci
    rcases state_of_conflict_for_key hok hc hck hci with ⟨fps, hf, hfps, hhf, hst⟩
    have hhashes := pairsOk_hashes hfps
    rw [hhs] at hhashes
    have hseq : hs = fps.map (fun x => x.2.hash) := by injection hhashes
    have hfeq : hf = some hfp := by
      rw [homeFingerprintE, if_pos hhome, hhfp] at hhf
      injection hhf with h
      exact h.symm
    subst hfeq
    cases hfpsl : fps with
    | nil =>
        subst hfpsl
        simp [hseq] at hne
    | cons p0 rest =>
        have hhead : fps.head? = some p0 := by rw [hfpsl]; rfl
        have hp0 : p0.2.hash = h0 := by
          refine dedupFirst_eq_singleton (hseq ▸ hone) p0.2.hash ?_
          rw [hfpsl]
          exact List.mem_map.mpr ⟨p0, by simp, rfl⟩
        rw [hst]
        exact classifyGroup_single_match _ kind includeDiffFull
          (hseq ▸ hone) hhead (by rw [hp0, heq])

/-- C6 (amended): `buildScanConflicts` succeeds only when every discovered
asset in the batch fingerprints successfully — a fingerprint read error is
not isolated per asset but rejects the whole call. -/
theorem buildScanConflicts_ok_requires_all_fingerprints
    (world : FsTree) (home : Path) (tracked : List String)
    (includeDiff includeDiffFull : Bool) (assets : List DiscoveredAsset)
    (cs : List ScanConflict)
    (hok : buildScanConflicts world home tracked includeDiff includeDiffFull
      assets = .ok cs) :
    ∀ a ∈ assets, ∃ fp,
      fingerprintAsset world a.kind a.path includeDiffFull = .ok fp := by
  intro a ha
  have hkey : keyOf a ∈ assets.map keyOf := List.mem_map.mpr ⟨a, ha, rfl⟩
  have hg : (keyOf a, assets.filter (fun b => decide (keyOf b = keyOf a))) ∈
      groupByKindAndId assets := mem_groupByKindAndId.mpr ⟨hkey, rfl⟩
  rcases buildScanConflicts_covers hok hg with ⟨c, _, hok'⟩
  rcases scanConflictForGroup_ok_elim hok' with ⟨fps, _, hfps, _, _, _, _⟩
  have hafil : a ∈ assets.filter (fun b => decide (keyOf b = keyOf a)) :=
    List.mem_filter.mpr ⟨ha, by simp⟩
  rcases forall₂_mem_left (mapME_ok_iff.mp hfps) hafil with ⟨y, _, hya⟩
  cases hfp : fingerprintAsset world a.kind a.path includeDiffFull with
  | error e => rw [hfp] at hya; cases hya
  | ok fp => exact ⟨fp, rfl⟩

/-! ### Concrete scan scenarios -/

/-- Two sources provide different content for the same prompt id; no home
copy exists. -/
def multiSrcWorld : FsTree :=
  .dir (.cons "home" (.dir (.cons "prompts" (.dir .nil) .nil))
    (.cons "srcA" (.dir (.cons "release.md" (.file (some "A\n")) .nil))
    (.cons "srcB" (.dir (.cons "release.md" (.file (some "B\n")) .nil)) .nil)))

/-- The two discovered copies of `release` in `multiSrcWorld`. -/
def multiSrcAssets : List DiscoveredAsset :=
  [{ id := "release", kind := .prompt, source := "alpha",
     path := ["srcA", "release.md"] },
   { id := "release", kind := .prompt, source := "beta",
     path := ["srcB", "release.md"] }]

/-- The conflict list `buildScanConflicts` returns on `multiSrcWorld`. -/
def multiSrcOut : List ScanConflict :=
  [{ kind := .prompt, id := "release", state := .ambiguousMultiSource,
     reason := "Multiple sources provide different content for the same asset id.",
     recommendation := "Use --sync-select with one source path after reviewing --diff-full.",
     sources := ["alpha", "beta"], diff := none }]

/-- One source differs from a tracked home copy (the spec's own
content-drift scenario). -/
def driftWorld : FsTree :=
  .dir (.cons "home"
    (.dir (.cons "prompts"
      (.dir (.cons "release.md"
        (.file (some "---\ndescription: home\n---\n")) .nil)) .nil))
    (.cons "src" (.dir (.cons "release.md"
      (.file (some "---\ndescription: source\n---\n")) .nil)) .nil))

/-- The discovered copy of `release` in `driftWorld`. -/
def driftAsset : DiscoveredAsset :=
  { id := "release", kind := .prompt, source := "custom",
    path := ["src", "release.md"] }

/-- The fingerprint of the home copy of `release` in `driftWorld`. -/
def driftHomeFp : AssetFingerprint :=
  { hash := "---\ndescription: home\n---\n", description := "4 lines",
    previewLines := none }

/-- The conflict list `buildScanConflicts` returns on `driftWorld` with
the home copy tracked. -/
def driftOut : List ScanConflict :=
  [{ kind := .prompt, id := "release", state := .contentDrift,
     reason := "Home asset content differs from discovered source content.",
     recommendation := "Review drift with --diff-full before syncing.",
     sources := ["custom"], diff := none }]

/-- One source matching an untracked home copy byte for byte. -/
def matchWorld : FsTree :=
  .dir (.cons "home"
    (.dir (.cons "prompts" (.dir (.cons "p.md" (.file (some "hello\n")) .nil))
      .nil))
    (.cons "src" (.dir (.cons "p.md" (.file (some "hello\n")) .nil)) .nil))

/-- The discovered copy of `p` in `matchWorld`. -/
def matchAsset : DiscoveredAsset :=
  { id := "p", kind := .prompt, source := "custom", path := ["src", "p.md"] }

/-- The fingerprint of the home copy of `p` in `matchWorld`. -/
def matchHomeFp : AssetFingerprint :=
  { hash := "hello\n", description := "2 lines", previewLines := none }

/-- The conflict list `buildScanConflicts` returns on `matchWorld` with no
tracked files. -/
def matchOut : List ScanConflict :=
  [{ kind := .prompt, id := "p", state := .homeUntracked,
     reason := "Home asset exists but is not git-tracked.",
     recommendation := "Track the home asset in git to avoid accidental drift.",
     sources := ["custom"], diff := none }]

/-- A batch in which one discovered prompt is unreadable and the other is
fine. -/
def readErrWorld : FsTree :=
  .dir (.cons "home" (.dir (.cons "prompts" (.dir .nil) .nil))
    (.cons "src" (.dir (.cons "bad.md" (.file none)
      (.cons "good.md" (.file (some "ok\n")) .nil))) .nil))

/-- The two discovered assets of `readErrWorld`: `bad` is unreadable,
`good` is readable. -/
def readErrAssets : List DiscoveredAsset :=
  [{ id := "bad", kind := .prompt, source := "s", path := ["src", "bad.md"] },
   { id := "good", kind := .prompt, source := "s", path := ["src", "good.md"] }]

/-- C1 witness: on `multiSrcWorld` the two source fingerprints differ, and
the single reported conflict for `release` is `ambiguous-multi-source`. -/
theorem buildScanConflicts_multi_hash_ambiguous_witness :
    (∃ c ∈ multiSrcOut, c.kind = .prompt ∧ c.id = "release") ∧
      ∀ c ∈ multiSrcOut, c.kind = .prompt → c.id = "release" →
        c.state = .ambiguousMultiSource :=
  buildScanConflicts_multi_hash_ambiguous multiSrcWorld ["home"] [] false false
    multiSrcAssets .prompt "release" multiSrcOut ["A\n", "B\n"]
    rfl rfl (by decide)

/-- C2 witness: on `driftWorld` with the home copy tracked, the reported
state for `release` is `content-drift` (the tracked branch of the
conclusion). -/
theorem buildScanConflicts_mismatch_drift_or_untracked_witness :
    ((∃ c ∈ driftOut, c.kind = .prompt ∧ c.id = "release") ∧
      ∀ c ∈ driftOut, c.kind = .prompt → c.id = "release" →
        c.state = if homeTrackedOf ["prompts/release.md"] .prompt "release"
          then .contentDrift else .homeModifiedUntracked) ∧
    homeTrackedOf ["prompts/release.md"] .prompt "release" = true :=
  ⟨buildScanConflicts_mismatch_drift_or_untracked driftWorld ["home"]
    ["prompts/release.md"] false false [driftAsset] .prompt "release" driftOut
    ["---\ndescription: source\n---\n"] "---\ndescription: source\n---\n"
    driftHomeFp rfl rfl rfl rfl rfl (by decide), rfl⟩

/-- C3 counterexample: on `matchWorld` the single source copy of `p`
matches the home copy byte for byte, yet with the home copy untracked the
reported state is `home-untracked`, not `no-conflict`. -/
theorem scan_matching_untracked_counterexample :
    buildScanConflicts matchWorld ["home"] [] false false [matchAsset] =
      .ok matchOut ∧
    groupSourceHashes matchWorld false
      ([matchAsset].filter (fun a => decide (keyOf a = (.prompt, "p")))) =
      .ok ["hello\n"] ∧
    fingerprintAsset matchWorld .prompt (["home"] ++ homeRelPath .prompt "p")
      false = .ok matchHomeFp ∧
    (∀ c ∈ matchOut, c.state = .homeUntracked) ∧
    (ScanConflictState.homeUntracked ≠ .noConflict) :=
  ⟨rfl, rfl, rfl, by decide, by decide⟩

/-- C3 witness: applying the amended theorem on `matchWorld` with no
tracked files yields the untracked branch, `home-untracked`. -/
theorem buildScanConflicts_match_tracked_dependent_witness :
    (∃ c ∈ matchOut, c.kind = .prompt ∧ c.id = "p") ∧
      ∀ c ∈ matchOut, c.kind = .prompt → c.id = "p" →
        c.state = if homeTrackedOf [] .prompt "p" then .noConflict
          else .homeUntracked :=
  buildScanConflicts_match_tracked_dependent matchWorld ["home"] [] false false
    [matchAsset] .prompt "p" matchOut ["hello\n"] "hello\n" matchHomeFp
    rfl rfl rfl rfl rfl rfl

/-- C6 counterexample: on `readErrWorld` the readable asset `good`
fingerprints fine, yet one unreadable asset makes the whole
`buildScanConflicts` call fail — no per-asset error, no classification for
`good`. -/
theorem scan_read_error_aborts_batch :
    buildScanConflicts readErrWorld ["home"] [] false false readErrAssets =
      .error ("EIO: read failed: " ++ "src/bad.md") ∧
    fingerprintAsset readErrWorld .prompt ["src", "good.md"] false =
      .ok { hash := "ok\n", description := "2 lines", previewLines := none } ∧
    ∀ cs, buildScanConflicts readErrWorld ["home"] [] false false
      readErrAssets ≠ .ok cs := by
  refine ⟨rfl, rfl, ?_⟩
  intro cs hc
  rw [show buildScanConflicts readErrWorld ["home"] [] false false readErrAssets
      = .error ("EIO: read failed: " ++ "src/bad.md") from rfl] at hc
  cases hc

/-- C6 witness: on `matchWorld` the call succeeds, and the amended theorem
yields a successful fingerprint for the discovered asset. -/
theorem buildScanConflicts_ok_requires_all_fingerprints_witness :
    ∃ fp, fingerprintAsset matchWorld matchAsset.kind matchAsset.path false
      = .ok fp :=
  buildScanConflicts_ok_requires_all_fingerprints matchWorld ["home"] []
    false false [matchAsset] matchOut rfl matchAsset
    (List.mem_cons_self matchAsset [])

/-! ### The importer (C7) -/

/-- The canonical target path `importDiscoveredAssetToHome` writes to:
`<home>/prompts/<id>.md` for prompts, `<home>/skills/<id>` for skills. -/
def importTargetPath (home : Path) (asset : DiscoveredAsset) : Path :=
  match asset.kind with
  | .prompt => home ++ "prompts" :: splitSlash (asset.id ++ ".md")
  | .skill => home ++ "skills" :: splitSlash asset.id

/-- C7: importing onto an existing canonical target without `force` fails
with an "already exists" error, and the filesystem — in particular the
existing target — is returned exactly as it was: the existence check
precedes every mutation, so no partial write happens. -/
theorem import_existing_target_fails (world : FsTree) (home : Path)
    (asset : DiscoveredAsset)
    (h : pathExists world (importTargetPath home asset) = true) :
    ∃ msg,
      importDiscoveredAssetToHome world home asset false = (world, .error msg) ∧
      msg = "Target " ++ ("already exists" ++ (": " ++
        joinPath (importTargetPath home asset) ++
        ". Use --force to overwrite.")) := by
  cases hk : asset.kind with
  | prompt =>
      refine ⟨_, ?_, rfl⟩
      have h' : pathExists world
          (home ++ "prompts" :: splitSlash (asset.id ++ ".md")) = true := by
        rw [← h, importTargetPath, hk]
      simp only [importDiscoveredAssetToHome, hk, copyFileFs.eq_def,
        importTargetPath, h', Bool.false_eq_true, not_false_eq_true, and_true,
        if_true, if_pos, Except.map, String.append_assoc]
  | skill =>
      refine ⟨_, ?_, rfl⟩
      have h' : pathExists world
          (home ++ "skills" :: splitSlash asset.id) = true := by
        rw [← h, importTargetPath, hk]
      simp only [importDiscoveredAssetToHome, hk, copyDirectoryFs.eq_def,
        importTargetPath, h', Bool.false_eq_true, not_false_eq_true, and_true,
        if_true, if_pos, Except.map, String.append_assoc]

/-- A home store whose `prompts/p.md` already holds content. -/
def importWorld : FsTree :=
  .dir (.cons "h"
    (.dir (.cons "prompts" (.dir (.cons "p.md" (.file (some "old")) .nil)) .nil))
    (.cons "src" (.dir (.cons "p.md" (.file (some "new")) .nil)) .nil))

/-- The discovered asset whose import would collide with `prompts/p.md`. -/
def importAsset : DiscoveredAsset :=
  { id := "p", kind := .prompt, source := "s", path := ["src", "p.md"] }

/-- C7 witness: on `importWorld` the target exists, the import without
`force` returns the untouched filesystem and the "already exists" error. -/
theorem import_existing_target_fails_witness :
    pathExists importWorld (importTargetPath ["h"] importAsset) = true ∧
    ∃ msg,
      importDiscoveredAssetToHome importWorld ["h"] importAsset false =
        (importWorld, .error msg) ∧
      msg = "Target " ++ ("already exists" ++ (": " ++
        joinPath (importTargetPath ["h"] importAsset) ++
        ". Use --force to overwrite.")) :=
  ⟨rfl, import_existing_target_fails importWorld ["h"] importAsset rfl⟩

/-! ### The prompt diff preview (C10) -/

theorem flatMap_congr_mem {f g : α → List β} :
    ∀ l : List α, (∀ x ∈ l, f x = g x) → l.flatMap f = l.flatMap g := by
  intro l
  induction l with
  | nil => intro _; rfl
  | cons x xs ih =>
      intro hfg
      rw [List.flatMap_cons, List.flatMap_cons, hfg x (by simp),
        ih (fun y hy => hfg y (List.mem_cons_of_mem x hy))]

theorem previewGo_spec (h s : List String) (m : Nat) :
    ∀ (n i : Nat), m - i ≤ n → ∀ out : List String,
      out.length % 2 = 0 → out.length < 8 →
      ∃ idxs : List Nat,
        List.Chain' (· < ·) idxs ∧
        (∀ j ∈ idxs, i ≤ j ∧ j < m ∧ h.getD j "" ≠ s.getD j "") ∧
        previewGo h s m i out = out ++ idxs.flatMap (fun j =>
          ["line " ++ toString (j + 1) ++ " home:   " ++ h.getD j "",
           "line " ++ toString (j + 1) ++ " source: " ++ s.getD j ""]) ∧
        (previewGo h s m i out).length ≤ 8 := by
  intro n
  induction n with
  | zero =>
      intro i hle out hpar hlt
      have him : ¬i < m := by omega
      refine ⟨[], List.chain'_nil, by simp, ?_, ?_⟩
      · rw [previewGo, if_neg him]
        simp
      · rw [previewGo, if_neg him]
        omega
  | succ n ih =>
      intro i hle out hpar hlt
      by_cases him : i < m
      · by_cases heq : h.getD i "" = s.getD i ""
        · have hrec := ih (i + 1) (by omega) out hpar hlt
          rcases hrec with ⟨idxs, hch, hcond, heqn, hlen⟩
          refine ⟨idxs, hch, ?_, ?_, ?_⟩
          · intro j hj
            rcases hcond j hj with ⟨h1, h2, h3⟩
            exact ⟨by omega, h2, h3⟩
          · rw [previewGo, if_pos him, if_pos heq]
            exact heqn
          · rw [previewGo, if_pos him, if_pos heq]
            exact hlen
        · set l1 := "line " ++ toString (i + 1) ++ " home:   " ++ h.getD i ""
            with hl1
          set l2 := "line " ++ toString (i + 1) ++ " source: " ++ s.getD i ""
            with hl2
          by_cases hstop : 8 ≤ (out ++ [l1, l2]).length
          · refine ⟨[i], ?_, ?_, ?_, ?_⟩
            · simp
            · intro j hj
              rcases List.mem_singleton.mp hj with rfl
              exact ⟨Nat.le_refl j, him, heq⟩
            · rw [previewGo, if_pos him, if_neg heq, if_pos hstop]
              simp [hl1, hl2]
            · rw [previewGo, if_pos him, if_neg heq, if_pos hstop]
              simp only [List.length_append, List.length_cons, List.length_nil]
              omega
          · have hpar2 : (out ++ [l1, l2]).length % 2 = 0 := by
              simp only [List.length_append, List.length_cons, List.length_nil]
              omega
            have hlt2 : (out ++ [l1, l2]).length < 8 := by
              simp only [List.length_append, List.length_cons,
                List.length_nil] at hstop ⊢
              omega
            have hrec := ih (i + 1) (by omega) (out ++ [l1, l2]) hpar2 hlt2
            rcases hrec with ⟨idxs, hch, hcond, heqn, hlen⟩
            refine ⟨i :: idxs, ?_, ?_, ?_, ?_⟩
            · refine List.chain'_cons'.mpr ⟨?_, hch⟩
              intro j hj
              have : j ∈ idxs := List.mem_of_mem_head? hj
              exact Nat.lt_of_lt_of_le (Nat.lt_succ_self i) (hcond j this).1
            · intro j hj
              rcases List.mem_cons.mp hj with rfl | hj
              · exact ⟨Nat.le_refl j, him, heq⟩
              · rcases hcond j hj with ⟨h1, h2, h3⟩
                exact ⟨by omega, h2, h3⟩
            · rw [previewGo, if_pos him, if_neg heq, if_neg hstop]
              rw [heqn, List.flatMap_cons]
              simp [hl1, hl2]
            · rw [previewGo, if_pos him, if_neg heq, if_neg hstop]
              exact hlen
      · refine ⟨[], List.chain'_nil, by simp, ?_, ?_⟩
        · rw [previewGo, if_neg him]
          simp
        · rw [previewGo, if_neg him]
          omega

theorem getD_take_ten (l : List String) (j : Nat) (hj : j < 10) :
    (l.take 10).getD j "" = l.getD j "" := by
  rcases Nat.lt_or_ge j l.length with hlen | hlen
  · rw [List.getD_eq_getElem _ _ (by simp; omega), List.getD_eq_getElem _ _ hlen]
    simp [List.getElem_take]
  · rw [List.getD_eq_default _ _ (by simp; omega),
      List.getD_eq_default _ _ (by omega)]

/-- C10: a prompt conflict preview is computed from the first 10 lines of
each side only: it lists, in increasing line order, exactly one
home/source line pair per differing 1-based line number ≤ 10 (a missing
line counting as empty) until the output reaches 8 lines, and never
exceeds 8 lines. -/
theorem promptDiffPreview_spec (home source : String) :
    ∃ idxs : List Nat,
      List.Chain' (· < ·) idxs ∧
      (∀ j ∈ idxs, j < 10 ∧ lineAtJs home j ≠ lineAtJs source j) ∧
      promptDiffPreview home source = idxs.flatMap (fun j =>
        ["line " ++ toString (j + 1) ++ " home:   " ++ lineAtJs home j,
         "line " ++ toString (j + 1) ++ " source: " ++ lineAtJs source j]) ∧
      (promptDiffPreview home source).length ≤ 8 := by
  have hm : max ((splitLinesJs home).take 10).length
      ((splitLinesJs source).take 10).length ≤ 10 := by
    simp only [List.length_take]
    omega
  have hspec := previewGo_spec ((splitLinesJs home).take 10)
    ((splitLinesJs source).take 10)
    (max ((splitLinesJs home).take 10).length
      ((splitLinesJs source).take 10).length)
    (max ((splitLinesJs home).take 10).length
      ((splitLinesJs source).take 10).length) 0 (by omega) [] (by simp)
    (by simp)
  rcases hspec with ⟨idxs, hch, hcond, heqn, hlen⟩
  have hj10 : ∀ j ∈ idxs, j < 10 := fun j hj =>
    Nat.lt_of_lt_of_le (hcond j hj).2.1 hm
  refine ⟨idxs, hch, ?_, ?_, ?_⟩
  · intro j hj
    have h10 := hj10 j hj
    have := (hcond j hj).2.2
    rw [getD_take_ten _ _ h10, getD_take_ten _ _ h10] at this
    exact ⟨h10, this⟩
  · rw [promptDiffPreview, buildPromptPreview, heqn, List.nil_append]
    refine flatMap_congr_mem idxs ?_
    intro j hj
    have h10 := hj10 j hj
    rw [getD_take_ten _ _ h10, getD_take_ten _ _ h10]
    rfl
  · rw [promptDiffPreview, buildPromptPreview]
    exact hlen

/-! ### Order lemmas for the lexicographic string model (C4) -/

theorem listLeChars_total : ∀ a b : List Char,
    listLeChars a b = true ∨ listLeChars b a = true := by
  intro a
  induction a with
  | nil => intro b; left; rfl
  | cons x xs ih =>
      intro b
      cases b with
      | nil => right; rfl
      | cons y ys =>
          rcases lt_trichotomy x y with h | h | h
          · left; simp [listLeChars, h]
          · subst h
            rcases ih ys with h2 | h2
            · left; simp [listLeChars, lt_irrefl, h2]
            · right; simp [listLeChars, lt_irrefl, h2]
          · right; simp [listLeChars, h]

theorem listLeChars_trans : ∀ a b c : List Char,
    listLeChars a b = true → listLeChars b c = true →
      listLeChars a c = true := by
  intro a
  induction a with
  | nil => intro b c _ _; rfl
  | cons x xs ih =>
      intro b c hab hbc
      cases b with
      | nil => simp [listLeChars] at hab
      | cons y ys =>
          cases c with
          | nil => simp [listLeChars] at hbc
          | cons z zs =>
              by_cases hxy : x < y
              · by_cases hyz : y < z
                · simp [listLeChars, lt_trans hxy hyz]
                · by_cases hzy : z < y
                  · simp [listLeChars, hyz, hzy] at hbc
                  · have hyzeq : y = z :=
                      le_antisymm (le_of_not_lt hzy) (le_of_not_lt hyz)
                    subst hyzeq
                    simp [listLeChars, hxy]
              · by_cases hyx : y < x
                · simp [listLeChars, hxy, hyx] at hab
                · have hxyeq : x = y :=
                    le_antisymm (le_of_not_lt hyx) (le_of_not_lt hxy)
                  subst hxyeq
                  rw [listLeChars, if_neg (lt_irrefl x), if_neg (lt_irrefl x)]
                    at hab
                  by_cases hxz : x < z
                  · simp [listLeChars, hxz]
                  · by_cases hzx : z < x
                    · simp [listLeChars, hxz, hzx] at hbc
                    · rw [listLeChars, if_neg hxz, if_neg hzx] at hbc ⊢
                      exact ih ys zs hab hbc

theorem listLeChars_antisymm : ∀ a b : List Char,
    listLeChars a b = true → listLeChars b a = true → a = b := by
  intro a
  induction a with
  | nil =>
      intro b _ hba
      cases b with
      | nil => rfl
      | cons y ys => simp [listLeChars] at hba
  | cons x xs ih =>
      intro b hab hba
      cases b with
      | nil => simp [listLeChars] at hab
      | cons y ys =>
          by_cases hxy : x < y
          · simp [listLeChars, lt_asymm hxy, hxy] at hba
          · by_cases hyx : y < x
            · simp [listLeChars, hxy, hyx] at hab
            · have hxyeq : x = y :=
                le_antisymm (le_of_not_lt hyx) (le_of_not_lt hxy)
              subst hxyeq
              rw [listLeChars, if_neg (lt_irrefl x), if_neg (lt_irrefl x)]
                at hab hba
              rw [ih ys hab hba]

theorem strLe_total (a b : String) : strLe a b = true ∨ strLe b a = true :=
  listLeChars_total a.data b.data

theorem strLe_trans (a b c : String) (h1 : strLe a b = true)
    (h2 : strLe b c = true) : strLe a c = true :=
  listLeChars_trans a.data b.data c.data h1 h2

theorem strLe_antisymm (a b : String) (h1 : strLe a b = true)
    (h2 : strLe b a = true) : a = b :=
  String.ext (listLeChars_antisymm a.data b.data h1 h2)

/-! ### The skill fingerprint (C4) -/

/-- The (POSIX relative path, content) view of a directory's files, the
"file set" the spec's fingerprint property quantifies over. -/
def joinedFiles (es : FsEntries) : List (String × Option String) :=
  es.collectFiles.map (fun pc => (joinPath pc.1, pc.2))

theorem map_insertSorted (f : α → β) (le : α → α → Bool) (le2 : β → β → Bool)
    (hcomp : ∀ a b, le a b = le2 (f a) (f b)) (x : α) :
    ∀ l : List α, (insertSorted le x l).map f =
      insertSorted le2 (f x) (l.map f) := by
  intro l
  induction l with
  | nil => rfl
  | cons y ys ih =>
      rw [insertSorted, List.map_cons, insertSorted, ← hcomp]
      by_cases h : le x y = true
      · rw [if_pos h, if_pos h, List.map_cons, List.map_cons]
      · rw [if_neg h, if_neg h, List.map_cons, ih]

theorem map_sortByLe (f : α → β) (le : α → α → Bool) (le2 : β → β → Bool)
    (hcomp : ∀ a b, le a b = le2 (f a) (f b)) :
    ∀ l : List α, (sortByLe le l).map f = sortByLe le2 (l.map f) := by
  intro l
  induction l with
  | nil => rfl
  | cons x xs ih =>
      rw [sortByLe, List.map_cons, sortByLe, ← ih,
        map_insertSorted f le le2 hcomp]

/-- The comparator of the joined view: order by relative path. -/
def joinedLe (a b : String × Option String) : Bool :=
  strLe a.1 b.1

theorem map_join_sortFilesByRel (files : List (Path × Option String)) :
    (sortFilesByRel files).map (fun pc => (joinPath pc.1, pc.2)) =
      sortByLe joinedLe (files.map (fun pc => (joinPath pc.1, pc.2))) := by
  rw [sortFilesByRel]
  refine map_sortByLe _ _ _ ?_ files
  intro a b
  rfl

theorem buildSkillStream_congr : ∀ {f1 f2 : List (Path × Option String)},
    f1.map (fun pc => (joinPath pc.1, pc.2)) =
      f2.map (fun pc => (joinPath pc.1, pc.2)) →
    buildSkillStream f1 = buildSkillStream f2 := by
  intro f1
  induction f1 with
  | nil =>
      intro f2 h
      cases f2 with
      | nil => rfl
      | cons x2 r2 => simp at h
  | cons x1 r1 ih =>
      intro f2 h
      cases f2 with
      | nil => simp at h
      | cons x2 r2 =>
          simp only [List.map_cons, List.cons.injEq, Prod.mk.injEq] at h
          rcases h with ⟨⟨hjoin, hcontent⟩, hrest⟩
          rcases hx1 : x1 with ⟨p1, c1⟩
          rcases hx2 : x2 with ⟨p2, c2⟩
          subst hx1 hx2
          simp only at hjoin hcontent
          subst hcontent
          cases c1 with
          | none => rw [buildSkillStream, buildSkillStream, hjoin]
          | some c =>
              rw [buildSkillStream, buildSkillStream, hjoin, ih hrest]

/-- C4 (amended): two skill directory trees with identical multisets of
(relative-path, content) pairs — any enumeration order, any roots — get
identical fingerprints, provided relative paths are unique as in a real
directory tree.  (The "different trees give different digests" half of the
original claim fails: see the collision counterexample.) -/
theorem fingerprintSkill_eq_of_same_files (w1 w2 : FsTree) (p1 p2 : Path)
    (ip : Bool) (es1 es2 : FsEntries)
    (h1 : lookupPath p1 w1 = some (.dir es1))
    (h2 : lookupPath p2 w2 = some (.dir es2))
    (hperm : List.Perm (joinedFiles es1) (joinedFiles es2))
    (hnodup : ((joinedFiles es1).map Prod.fst).Nodup) :
    fingerprintAsset w1 .skill p1 ip = fingerprintAsset w2 .skill p2 ip := by
  have htot : ∀ a b : String × Option String,
      joinedLe a b = true ∨ joinedLe b a = true :=
    fun a b => strLe_total a.1 b.1
  have htrans : ∀ a b c : String × Option String,
      joinedLe a b = true → joinedLe b c = true → joinedLe a c = true :=
    fun a b c => strLe_trans a.1 b.1 c.1
  have hsorted : sortByLe joinedLe (joinedFiles es1) =
      sortByLe joinedLe (joinedFiles es2) := by
    refine eq_of_perm_of_pairwise
      ((perm_sortByLe _ _).trans (hperm.trans (perm_sortByLe _ _).symm))
      (pairwise_sortByLe _ htot htrans _) (pairwise_sortByLe _ htot htrans _)
      ?_
    intro a ha b hb hab hba
    have ha1 : a ∈ joinedFiles es1 := (perm_sortByLe _ _).mem_iff.mp ha
    have hb1 : b ∈ joinedFiles es1 := (perm_sortByLe _ _).mem_iff.mp hb
    exact List.inj_on_of_nodup_map hnodup ha1 hb1
      (strLe_antisymm a.1 b.1 hab hba)
  have hmap : (sortFilesByRel es1.collectFiles).map
        (fun pc => (joinPath pc.1, pc.2)) =
      (sortFilesByRel es2.collectFiles).map
        (fun pc => (joinPath pc.1, pc.2)) := by
    rw [map_join_sortFilesByRel, map_join_sortFilesByRel]
    exact hsorted
  have hstream := buildSkillStream_congr hmap
  have hlen : (sortFilesByRel es1.collectFiles).length =
      (sortFilesByRel es2.collectFiles).length := by
    have := congrArg List.length hmap
    simpa using this
  have hpreview : ((sortFilesByRel es1.collectFiles).take 10).map
        (fun pc => joinPath pc.1) =
      ((sortFilesByRel es2.collectFiles).take 10).map
        (fun pc => joinPath pc.1) := by
    have h := congrArg (fun l => (l.map Prod.fst).take 10) hmap
    simpa [List.map_take, Function.comp] using h
  rw [fingerprintAsset, fingerprintAsset, h1, h2]
  simp only
  rw [hstream]
  cases buildSkillStream (sortFilesByRel es2.collectFiles) with
  | error e => rfl
  | ok stream =>
      simp only [Except.ok.injEq, AssetFingerprint.mk.injEq, hlen, hpreview,
        true_and, and_true]

/-- The first colliding skill tree: one file `a` with content
`"x\nb\ny"`. -/
def collideTreeA : FsEntries :=
  .cons "a" (.file (some "x\nb\ny")) .nil

/-- The second colliding skill tree: files `a` = `"x"` and `b` = `"y"` —
a different (relative-path, content) set. -/
def collideTreeB : FsEntries :=
  .cons "a" (.file (some "x")) (.cons "b" (.file (some "y")) .nil)

/-- A world containing both colliding trees. -/
def collideWorld : FsTree :=
  .dir (.cons "s1" (.dir collideTreeA) (.cons "s2" (.dir collideTreeB) .nil))

/-- C4 counterexample: the two trees have different (relative-path,
content) sets, yet both feed the identical byte stream
`"a\nx\nb\ny\n"` to the hasher, so the real SHA-256 digests are equal
— the "any difference changes the digest" half of the claim is false. -/
theorem skill_fingerprint_collision :
    (fingerprintAsset collideWorld .skill ["s1"] false).map (fun fp => fp.hash)
      = .ok ("a\nx\nb\ny\n") ∧
    (fingerprintAsset collideWorld .skill ["s2"] false).map (fun fp => fp.hash)
      = .ok ("a\nx\nb\ny\n") ∧
    ("a", some "x\nb\ny") ∈ joinedFiles collideTreeA ∧
    ("a", some "x\nb\ny") ∉ joinedFiles collideTreeB ∧
    joinedFiles collideTreeA ≠ joinedFiles collideTreeB := by
  refine ⟨rfl, rfl, by decide, by decide, by decide⟩

/-- C4 witness: permuting the enumeration of an identical file set leaves
the fingerprint unchanged — two roots holding files `a` = `"x"`,
`b` = `"y"` in opposite entry orders fingerprint identically. -/
def permTreeA : FsEntries :=
  .cons "a" (.file (some "x")) (.cons "b" (.file (some "y")) .nil)

/-- The same file set as `permTreeA`, enumerated in the opposite order. -/
def permTreeB : FsEntries :=
  .cons "b" (.file (some "y")) (.cons "a" (.file (some "x")) .nil)

/-- The world holding `permTreeA` and `permTreeB`. -/
def permWorld : FsTree :=
  .dir (.cons "t1" (.dir permTreeA) (.cons "t2" (.dir permTreeB) .nil))

/-- C4 witness: the amended theorem applied to `permWorld`. -/
theorem fingerprintSkill_eq_of_same_files_witness :
    fingerprintAsset permWorld .skill ["t1"] false =
      fingerprintAsset permWorld .skill ["t2"] false :=
  fingerprintSkill_eq_of_same_files permWorld permWorld ["t1"] ["t2"] false
    permTreeA permTreeB rfl rfl (by decide) (by decide)

/-! ### The prompt byte-level digest (C5) -/

theorem encodeUtf8_cons (x : Nat) (xs : List Nat) :
    encodeUtf8 (x :: xs) = encodeChar x ++ encodeUtf8 xs := by
  rw [encodeUtf8, encodeUtf8, List.flatMap_cons]

theorem decodeUtf8_one (b : Nat) :
    decodeUtf8 [b] = if b ≤ 0x7F then [b] else [0xFFFD] := by
  by_cases h1 : b ≤ 0x7F
  · rw [if_pos h1]
    show (if b ≤ 0x7F then b :: decodeUtf8 [] else _) = [b]
    rw [if_pos h1]
    rfl
  · rw [if_neg h1]
    show (if b ≤ 0x7F then b :: decodeUtf8 []
      else if 0xC2 ≤ b ∧ b ≤ 0xDF then [0xFFFD]
      else if 0xE0 ≤ b ∧ b ≤ 0xEF then [0xFFFD]
      else if 0xF0 ≤ b ∧ b ≤ 0xF4 then [0xFFFD]
      else 0xFFFD :: decodeUtf8 []) = [0xFFFD]
    rw [if_neg h1]
    split
    · rfl
    · split
      · rfl
      · split <;> rfl

theorem validUtf8_one (b : Nat) :
    validUtf8 [b] = if b ≤ 0x7F then true else false := by
  show (if b ≤ 0x7F then validUtf8 []
    else if 0xC2 ≤ b ∧ b ≤ 0xDF then false
    else if 0xE0 ≤ b ∧ b ≤ 0xEF then false
    else if 0xF0 ≤ b ∧ b ≤ 0xF4 then false
    else false) = if b ≤ 0x7F then true else false
  by_cases h1 : b ≤ 0x7F
  · rw [if_pos h1, if_pos h1]
    rfl
  · rw [if_neg h1, if_neg h1]
    split
    · rfl
    · split
      · rfl
      · split <;> rfl

theorem decodeUtf8_two (b c1 : Nat) :
    decodeUtf8 [b, c1] =
      if b ≤ 0x7F then b :: decodeUtf8 [c1]
      else if 0xC2 ≤ b ∧ b ≤ 0xDF then
        (if 0x80 ≤ c1 ∧ c1 ≤ 0xBF then
          ((b - 0xC0) * 64 + (c1 - 0x80)) :: decodeUtf8 []
        else 0xFFFD :: decodeUtf8 [c1])
      else if 0xE0 ≤ b ∧ b ≤ 0xEF then
        (if (if b = 0xE0 then 0xA0 else 0x80) ≤ c1 ∧
            c1 ≤ (if b = 0xED then 0x9F else 0xBF) then [0xFFFD]
        else 0xFFFD :: decodeUtf8 [c1])
      else if 0xF0 ≤ b ∧ b ≤ 0xF4 then
        (if (if b = 0xF0 then 0x90 else 0x80) ≤ c1 ∧
            c1 ≤ (if b = 0xF4 then 0x8F else 0xBF) then [0xFFFD]
        else 0xFFFD :: decodeUtf8 [c1])
      else 0xFFFD :: decodeUtf8 [c1] := rfl

theorem decodeUtf8_three (b c1 c2 : Nat) :
    decodeUtf8 [b, c1, c2] =
      if b ≤ 0x7F then b :: decodeUtf8 [c1, c2]
      else if 0xC2 ≤ b ∧ b ≤ 0xDF then
        (if 0x80 ≤ c1 ∧ c1 ≤ 0xBF then
          ((b - 0xC0) * 64 + (c1 - 0x80)) :: decodeUtf8 [c2]
        else 0xFFFD :: decodeUtf8 [c1, c2])
      else if 0xE0 ≤ b ∧ b ≤ 0xEF then
        (if (if b = 0xE0 then 0xA0 else 0x80) ≤ c1 ∧
            c1 ≤ (if b = 0xED then 0x9F else 0xBF) then
          (if 0x80 ≤ c2 ∧ c2 ≤ 0xBF then
            ((b - 0xE0) * 4096 + (c1 - 0x80) * 64 + (c2 - 0x80)) ::
              decodeUtf8 []
          else 0xFFFD :: decodeUtf8 [c2])
        else 0xFFFD :: decodeUtf8 [c1, c2])
      else if 0xF0 ≤ b ∧ b ≤ 0xF4 then
        (if (if b = 0xF0 then 0x90 else 0x80) ≤ c1 ∧
            c1 ≤ (if b = 0xF4 then 0x8F else 0xBF) then
          (if 0x80 ≤ c2 ∧ c2 ≤ 0xBF then [0xFFFD]
          else 0xFFFD :: decodeUtf8 [c2])
        else 0xFFFD :: decodeUtf8 [c1, c2])
      else 0xFFFD :: decodeUtf8 [c1, c2] := rfl

theorem decodeUtf8_four (b c1 c2 c3 : Nat) (rest4 : List Nat) :
    decodeUtf8 (b :: c1 :: c2 :: c3 :: rest4) =
      if b ≤ 0x7F then b :: decodeUtf8 (c1 :: c2 :: c3 :: rest4)
      else if 0xC2 ≤ b ∧ b ≤ 0xDF then
        (if 0x80 ≤ c1 ∧ c1 ≤ 0xBF then
          ((b - 0xC0) * 64 + (c1 - 0x80)) :: decodeUtf8 (c2 :: c3 :: rest4)
        else 0xFFFD :: decodeUtf8 (c1 :: c2 :: c3 :: rest4))
      else if 0xE0 ≤ b ∧ b ≤ 0xEF then
        (if (if b = 0xE0 then 0xA0 else 0x80) ≤ c1 ∧
            c1 ≤ (if b = 0xED then 0x9F else 0xBF) then
          (if 0x80 ≤ c2 ∧ c2 ≤ 0xBF then
            ((b - 0xE0) * 4096 + (c1 - 0x80) * 64 + (c2 - 0x80)) ::
              decodeUtf8 (c3 :: rest4)
          else 0xFFFD :: decodeUtf8 (c2 :: c3 :: rest4))
        else 0xFFFD :: decodeUtf8 (c1 :: c2 :: c3 :: rest4))
      else if 0xF0 ≤ b ∧ b ≤ 0xF4 then
        (if (if b = 0xF0 then 0x90 else 0x80) ≤ c1 ∧
            c1 ≤ (if b = 0xF4 then 0x8F else 0xBF) then
          (if 0x80 ≤ c2 ∧ c2 ≤ 0xBF then
            (if 0x80 ≤ c3 ∧ c3 ≤ 0xBF then
              ((b - 0xF0) * 262144 + (c1 - 0x80) * 4096 + (c2 - 0x80) * 64 +
                (c3 - 0x80)) :: decodeUtf8 rest4
            else 0xFFFD :: decodeUtf8 (c3 :: rest4))
          else 0xFFFD :: decodeUtf8 (c2 :: c3 :: rest4))
        else 0xFFFD :: decodeUtf8 (c1 :: c2 :: c3 :: rest4))
      else 0xFFFD :: decodeUtf8 (c1 :: c2 :: c3 :: rest4) := rfl

theorem validUtf8_two (b c1 : Nat) :
    validUtf8 [b, c1] =
      if b ≤ 0x7F then validUtf8 [c1]
      else if 0xC2 ≤ b ∧ b ≤ 0xDF then
        decide (0x80 ≤ c1 ∧ c1 ≤ 0xBF) && validUtf8 []
      else if 0xE0 ≤ b ∧ b ≤ 0xEF then false
      else if 0xF0 ≤ b ∧ b ≤ 0xF4 then false
      else false := rfl

theorem validUtf8_three (b c1 c2 : Nat) :
    validUtf8 [b, c1, c2] =
      if b ≤ 0x7F then validUtf8 [c1, c2]
      else if 0xC2 ≤ b ∧ b ≤ 0xDF then
        decide (0x80 ≤ c1 ∧ c1 ≤ 0xBF) && validUtf8 [c2]
      else if 0xE0 ≤ b ∧ b ≤ 0xEF then
        (decide ((if b = 0xE0 then 0xA0 else 0x80) ≤ c1 ∧
          c1 ≤ (if b = 0xED then 0x9F else 0xBF)) &&
          decide (0x80 ≤ c2 ∧ c2 ≤ 0xBF)) && validUtf8 []
      else if 0xF0 ≤ b ∧ b ≤ 0xF4 then false
      else false := rfl

theorem validUtf8_four (b c1 c2 c3 : Nat) (rest4 : List Nat) :
    validUtf8 (b :: c1 :: c2 :: c3 :: rest4) =
      if b ≤ 0x7F then validUtf8 (c1 :: c2 :: c3 :: rest4)
      else if 0xC2 ≤ b ∧ b ≤ 0xDF then
        decide (0x80 ≤ c1 ∧ c1 ≤ 0xBF) && validUtf8 (c2 :: c3 :: rest4)
      else if 0xE0 ≤ b ∧ b ≤ 0xEF then
        (decide ((if b = 0xE0 then 0xA0 else 0x80) ≤ c1 ∧
          c1 ≤ (if b = 0xED then 0x9F else 0xBF)) &&
          decide (0x80 ≤ c2 ∧ c2 ≤ 0xBF)) && validUtf8 (c3 :: rest4)
      else if 0xF0 ≤ b ∧ b ≤ 0xF4 then
        ((decide ((if b = 0xF0 then 0x90 else 0x80) ≤ c1 ∧
          c1 ≤ (if b = 0xF4 then 0x8F else 0xBF)) &&
          decide (0x80 ≤ c2 ∧ c2 ≤ 0xBF)) &&
          decide (0x80 ≤ c3 ∧ c3 ≤ 0xBF)) && validUtf8 rest4
      else false := rfl

theorem decode_ascii (b : Nat) (rest : List Nat) (h1 : b ≤ 0x7F) :
    decodeUtf8 (b :: rest) = b :: decodeUtf8 rest := by
  match rest with
  | [] => rw [decodeUtf8_one, if_pos h1]; rfl
  | [c1] => rw [decodeUtf8_two, if_pos h1]
  | [c1, c2] => rw [decodeUtf8_three, if_pos h1]
  | c1 :: c2 :: c3 :: rest4 => rw [decodeUtf8_four, if_pos h1]

theorem valid_ascii (b : Nat) (rest : List Nat) (h1 : b ≤ 0x7F) :
    validUtf8 (b :: rest) = validUtf8 rest := by
  match rest with
  | [] => rw [validUtf8_one, if_pos h1]; rfl
  | [c1] => rw [validUtf8_two, if_pos h1]
  | [c1, c2] => rw [validUtf8_three, if_pos h1]
  | c1 :: c2 :: c3 :: rest4 => rw [validUtf8_four, if_pos h1]

theorem decode_two_ok (b c1 : Nat) (rest2 : List Nat) (h1 : ¬b ≤ 0x7F)
    (h2 : 0xC2 ≤ b ∧ b ≤ 0xDF) (hc : 0x80 ≤ c1 ∧ c1 ≤ 0xBF) :
    decodeUtf8 (b :: c1 :: rest2) =
      ((b - 0xC0) * 64 + (c1 - 0x80)) :: decodeUtf8 rest2 := by
  match rest2 with
  | [] => rw [decodeUtf8_two, if_neg h1, if_pos h2, if_pos hc]
  | [c2] => rw [decodeUtf8_three, if_neg h1, if_pos h2, if_pos hc]
  | c2 :: c3 :: rest4 => rw [decodeUtf8_four, if_neg h1, if_pos h2, if_pos hc]

theorem valid_two_elim (b : Nat) (rest : List Nat) (h1 : ¬b ≤ 0x7F)
    (h2 : 0xC2 ≤ b ∧ b ≤ 0xDF) (h : validUtf8 (b :: rest) = true) :
    ∃ c1 rest2, rest = c1 :: rest2 ∧ (0x80 ≤ c1 ∧ c1 ≤ 0xBF) ∧
      validUtf8 rest2 = true := by
  match rest with
  | [] =>
      rw [validUtf8_one, if_neg h1] at h
      cases h
  | c1 :: rest2 =>
      refine ⟨c1, rest2, rfl, ?_⟩
      match rest2 with
      | [] =>
          rw [validUtf8_two, if_neg h1, if_pos h2, Bool.and_eq_true,
            decide_eq_true_eq] at h
          exact ⟨h.1, h.2⟩
      | [c2] =>
          rw [validUtf8_three, if_neg h1, if_pos h2, Bool.and_eq_true,
            decide_eq_true_eq] at h
          exact ⟨h.1, h.2⟩
      | c2 :: c3 :: rest4 =>
          rw [validUtf8_four, if_neg h1, if_pos h2, Bool.and_eq_true,
            decide_eq_true_eq] at h
          exact ⟨h.1, h.2⟩

theorem decode_three_ok (b c1 c2 : Nat) (rest3 : List Nat) (h1 : ¬b ≤ 0x7F)
    (h2 : ¬(0xC2 ≤ b ∧ b ≤ 0xDF)) (h3 : 0xE0 ≤ b ∧ b ≤ 0xEF)
    (hb1 : (if b = 0xE0 then 0xA0 else 0x80) ≤ c1 ∧
      c1 ≤ (if b = 0xED then 0x9F else 0xBF))
    (hc2 : 0x80 ≤ c2 ∧ c2 ≤ 0xBF) :
    decodeUtf8 (b :: c1 :: c2 :: rest3) =
      ((b - 0xE0) * 4096 + (c1 - 0x80) * 64 + (c2 - 0x80)) ::
        decodeUtf8 rest3 := by
  match rest3 with
  | [] =>
      rw [decodeUtf8_three, if_neg h1, if_neg h2, if_pos h3, if_pos hb1,
        if_pos hc2]
  | c3 :: rest4 =>
      rw [decodeUtf8_four, if_neg h1, if_neg h2, if_pos h3, if_pos hb1,
        if_pos hc2]

theorem valid_three_elim (b : Nat) (rest : List Nat) (h1 : ¬b ≤ 0x7F)
    (h2 : ¬(0xC2 ≤ b ∧ b ≤ 0xDF)) (h3 : 0xE0 ≤ b ∧ b ≤ 0xEF)
    (h : validUtf8 (b :: rest) = true) :
    ∃ c1 c2 rest3, rest = c1 :: c2 :: rest3 ∧
      ((if b = 0xE0 then 0xA0 else 0x80) ≤ c1 ∧
        c1 ≤ (if b = 0xED then 0x9F else 0xBF)) ∧
      (0x80 ≤ c2 ∧ c2 ≤ 0xBF) ∧ validUtf8 rest3 = true := by
  match rest with
  | [] =>
      rw [validUtf8_one, if_neg h1] at h
      cases h
  | [c1] =>
      rw [validUtf8_two, if_neg h1, if_neg h2, if_pos h3] at h
      cases h
  | c1 :: c2 :: rest3 =>
      refine ⟨c1, c2, rest3, rfl, ?_⟩
      match rest3 with
      | [] =>
          rw [validUtf8_three, if_neg h1, if_neg h2, if_pos h3,
            Bool.and_eq_true, Bool.and_eq_true, decide_eq_true_eq,
            decide_eq_true_eq] at h
          exact ⟨h.1.1, h.1.2, h.2⟩
      | c3 :: rest4 =>
          rw [validUtf8_four, if_neg h1, if_neg h2, if_pos h3,
            Bool.and_eq_true, Bool.and_eq_true, decide_eq_true_eq,
            decide_eq_true_eq] at h
          exact ⟨h.1.1, h.1.2, h.2⟩

theorem decode_four_ok (b c1 c2 c3 : Nat) (rest4 : List Nat) (h1 : ¬b ≤ 0x7F)
    (h2 : ¬(0xC2 ≤ b ∧ b ≤ 0xDF)) (h3 : ¬(0xE0 ≤ b ∧ b ≤ 0xEF))
    (h4 : 0xF0 ≤ b ∧ b ≤ 0xF4)
    (hb1 : (if b = 0xF0 then 0x90 else 0x80) ≤ c1 ∧
      c1 ≤ (if b = 0xF4 then 0x8F else 0xBF))
    (hc2 : 0x80 ≤ c2 ∧ c2 ≤ 0xBF) (hc3 : 0x80 ≤ c3 ∧ c3 ≤ 0xBF) :
    decodeUtf8 (b :: c1 :: c2 :: c3 :: rest4) =
      ((b - 0xF0) * 262144 + (c1 - 0x80) * 4096 + (c2 - 0x80) * 64 +
        (c3 - 0x80)) :: decodeUtf8 rest4 := by
  rw [decodeUtf8_four, if_neg h1, if_neg h2, if_neg h3, if_pos h4,
    if_pos hb1, if_pos hc2, if_pos hc3]

theorem valid_four_elim (b : Nat) (rest : List Nat) (h1 : ¬b ≤ 0x7F)
    (h2 : ¬(0xC2 ≤ b ∧ b ≤ 0xDF)) (h3 : ¬(0xE0 ≤ b ∧ b ≤ 0xEF))
    (h4 : 0xF0 ≤ b ∧ b ≤ 0xF4) (h : validUtf8 (b :: rest) = true) :
    ∃ c1 c2 c3 rest4, rest = c1 :: c2 :: c3 :: rest4 ∧
      ((if b = 0xF0 then 0x90 else 0x80) ≤ c1 ∧
        c1 ≤ (if b = 0xF4 then 0x8F else 0xBF)) ∧
      (0x80 ≤ c2 ∧ c2 ≤ 0xBF) ∧ (0x80 ≤ c3 ∧ c3 ≤ 0xBF) ∧
      validUtf8 rest4 = true := by
  match rest with
  | [] =>
      rw [validUtf8_one, if_neg h1] at h
      cases h
  | [c1] =>
      rw [validUtf8_two, if_neg h1, if_neg h2, if_neg h3, if_pos h4] at h
      cases h
  | [c1, c2] =>
      rw [validUtf8_three, if_neg h1, if_neg h2, if_neg h3, if_pos h4] at h
      cases h
  | c1 :: c2 :: c3 :: rest4 =>
      rw [validUtf8_four, if_neg h1, if_neg h2, if_neg h3, if_pos h4,
        Bool.and_eq_true, Bool.and_eq_true, Bool.and_eq_true,
        decide_eq_true_eq, decide_eq_true_eq, decide_eq_true_eq] at h
      exact ⟨c1, c2, c3, rest4, rfl, h.1.1.1, h.1.1.2, h.1.2, h.2⟩

theorem valid_bad_lead (b : Nat) (rest : List Nat) (h1 : ¬b ≤ 0x7F)
    (h2 : ¬(0xC2 ≤ b ∧ b ≤ 0xDF)) (h3 : ¬(0xE0 ≤ b ∧ b ≤ 0xEF))
    (h4 : ¬(0xF0 ≤ b ∧ b ≤ 0xF4)) :
    validUtf8 (b :: rest) = false := by
  match rest with
  | [] => rw [validUtf8_one, if_neg h1]
  | [c1] => rw [validUtf8_two, if_neg h1, if_neg h2, if_neg h3, if_neg h4]
  | [c1, c2] =>
      rw [validUtf8_three, if_neg h1, if_neg h2, if_neg h3, if_neg h4]
  | c1 :: c2 :: c3 :: rest4 =>
      rw [validUtf8_four, if_neg h1, if_neg h2, if_neg h3, if_neg h4]

theorem encode_decode_valid (l : List Nat) (h : validUtf8 l = true) :
    encodeUtf8 (decodeUtf8 l) = l := by
  match l with
  | [] => rfl
  | b :: rest =>
    by_cases h1 : b ≤ 0x7F
    · rw [valid_ascii b rest h1] at h
      rw [decode_ascii b rest h1, encodeUtf8_cons,
        encode_decode_valid rest h, encodeChar, if_pos h1]
      rfl
    · by_cases h2 : 0xC2 ≤ b ∧ b ≤ 0xDF
      · obtain ⟨c1, rest2, rfl, hc, hv⟩ := valid_two_elim b rest h1 h2 h
        rw [decode_two_ok b c1 rest2 h1 h2 hc, encodeUtf8_cons,
          encode_decode_valid rest2 hv]
        have hchar : encodeChar ((b - 0xC0) * 64 + (c1 - 0x80)) = [b, c1] := by
          rw [encodeChar, if_neg (by omega), if_pos (by omega)]
          have e1 : 0xC0 + ((b - 0xC0) * 64 + (c1 - 0x80)) / 64 = b := by omega
          have e2 : 0x80 + ((b - 0xC0) * 64 + (c1 - 0x80)) % 64 = c1 := by omega
          rw [e1, e2]
        rw [hchar]
        rfl
      · by_cases h3 : 0xE0 ≤ b ∧ b ≤ 0xEF
        · obtain ⟨c1, c2, rest3, rfl, hb1, hc2, hv⟩ :=
            valid_three_elim b rest h1 h2 h3 h
          rw [decode_three_ok b c1 c2 rest3 h1 h2 h3 hb1 hc2, encodeUtf8_cons,
            encode_decode_valid rest3 hv]
          have hc1lo : 0x80 ≤ c1 := by
            rcases hb1 with ⟨ha, _⟩
            by_cases hb : b = 0xE0
            · rw [if_pos hb] at ha; omega
            · rw [if_neg hb] at ha; omega
          have hc1hi : c1 ≤ 0xBF := by
            rcases hb1 with ⟨_, ha⟩
            by_cases hb : b = 0xED
            · rw [if_pos hb] at ha; omega
            · rw [if_neg hb] at ha; omega
          have hlow : 0x800 ≤ (b - 0xE0) * 4096 + (c1 - 0x80) * 64 +
              (c2 - 0x80) := by
            rcases hb1 with ⟨ha, _⟩
            by_cases hb : b = 0xE0
            · rw [if_pos hb] at ha; omega
            · rcases h3 with ⟨h3a, h3b⟩; omega
          have hchar : encodeChar ((b - 0xE0) * 4096 + (c1 - 0x80) * 64 +
              (c2 - 0x80)) = [b, c1, c2] := by
            rw [encodeChar, if_neg (by omega), if_neg (by omega),
              if_pos (by omega)]
            have e1 : 0xE0 + ((b - 0xE0) * 4096 + (c1 - 0x80) * 64 +
                (c2 - 0x80)) / 4096 = b := by omega
            have e2 : 0x80 + ((b - 0xE0) * 4096 + (c1 - 0x80) * 64 +
                (c2 - 0x80)) / 64 % 64 = c1 := by omega
            have e3 : 0x80 + ((b - 0xE0) * 4096 + (c1 - 0x80) * 64 +
                (c2 - 0x80)) % 64 = c2 := by omega
            rw [e1, e2, e3]
          rw [hchar]
          rfl
        · by_cases h4 : 0xF0 ≤ b ∧ b ≤ 0xF4
          · obtain ⟨c1, c2, c3, rest4, rfl, hb1, hc2, hc3, hv⟩ :=
              valid_four_elim b rest h1 h2 h3 h4 h
            rw [decode_four_ok b c1 c2 c3 rest4 h1 h2 h3 h4 hb1 hc2 hc3,
              encodeUtf8_cons, encode_decode_valid rest4 hv]
            have hc1lo : 0x80 ≤ c1 := by
              rcases hb1 with ⟨ha, _⟩
              by_cases hb : b = 0xF0
              · rw [if_pos hb] at ha; omega
              · rw [if_neg hb] at ha; omega
            have hc1hi : c1 ≤ 0xBF := by
              rcases hb1 with ⟨_, ha⟩
              by_cases hb : b = 0xF4
              · rw [if_pos hb] at ha; omega
              · rw [if_neg hb] at ha; omega
            have hlow : 0x10000 ≤ (b - 0xF0) * 262144 + (c1 - 0x80) * 4096 +
                (c2 - 0x80) * 64 + (c3 - 0x80) := by
              rcases hb1 with ⟨ha, _⟩
              by_cases hb : b = 0xF0
              · rw [if_pos hb] at ha; omega
              · rcases h4 with ⟨h4a, h4b⟩; omega
            have hchar : encodeChar ((b - 0xF0) * 262144 +
                (c1 - 0x80) * 4096 + (c2 - 0x80) * 64 + (c3 - 0x80)) =
                [b, c1, c2, c3] := by
              rw [encodeChar, if_neg (by omega), if_neg (by omega),
                if_neg (by omega)]
              have e1 : 0xF0 + ((b - 0xF0) * 262144 + (c1 - 0x80) * 4096 +
                  (c2 - 0x80) * 64 + (c3 - 0x80)) / 262144 = b := by omega
              have e2 : 0x80 + ((b - 0xF0) * 262144 + (c1 - 0x80) * 4096 +
                  (c2 - 0x80) * 64 + (c3 - 0x80)) / 4096 % 64 = c1 := by omega
              have e3 : 0x80 + ((b - 0xF0) * 262144 + (c1 - 0x80) * 4096 +
                  (c2 - 0x80) * 64 + (c3 - 0x80)) / 64 % 64 = c2 := by omega
              have e4 : 0x80 + ((b - 0xF0) * 262144 + (c1 - 0x80) * 4096 +
                  (c2 - 0x80) * 64 + (c3 - 0x80)) % 64 = c3 := by omega
              rw [e1, e2, e3, e4]
            rw [hchar]
            rfl
          · rw [valid_bad_lead b rest h1 h2 h3 h4] at h
            cases h
termination_by l.length

/-- C5 (amended): the prompt digest is the hash of the UTF-8 re-encoding
of the lossily decoded file text (Node reads the file with the `utf8`
encoding and hashes the resulting string), so for prompt files whose
bytes are well-formed UTF-8, digests are equal exactly when the on-disk
bytes are equal.  For ill-formed bytes the claim fails: see the
counterexample. -/
theorem promptDigest_valid_utf8_iff (b1 b2 : List Nat)
    (h1 : validUtf8 b1 = true) (h2 : validUtf8 b2 = true) :
    promptDigestOfBytes b1 = promptDigestOfBytes b2 ↔ b1 = b2 := by
  constructor
  · intro h
    rw [promptDigestOfBytes, promptDigestOfBytes] at h
    rw [← encode_decode_valid b1 h1, ← encode_decode_valid b2 h2]
    exact h
  · intro h
    rw [h]

/-- C5 counterexample: the bytes `0xFF` and `0xFE` are distinct on-disk
contents, but both decode to U+FFFD and hash the identical UTF-8 stream
`EF BF BD`, so their real SHA-256 digests are equal — the digest is not a
hash of the raw bytes. -/
theorem promptDigest_invalid_utf8_collision :
    promptDigestOfBytes [0xFF] = promptDigestOfBytes [0xFE] ∧
    promptDigestOfBytes [0xFF] = [0xEF, 0xBF, 0xBD] ∧
    ([0xFF] : List Nat) ≠ [0xFE] := by
  refine ⟨by decide, by decide, by decide⟩

/-- C5 witness: the amended iff applied to the valid UTF-8 byte strings
`"ab"` and `"é"` (2-byte sequence). -/
theorem promptDigest_valid_utf8_iff_witness :
    validUtf8 [0x61, 0x62] = true ∧ validUtf8 [0xC3, 0xA9] = true ∧
    (promptDigestOfBytes [0x61, 0x62] = promptDigestOfBytes [0xC3, 0xA9] ↔
      ([0x61, 0x62] : List Nat) = [0xC3, 0xA9]) :=
  ⟨by decide, by decide,
    promptDigest_valid_utf8_iff [0x61, 0x62] [0xC3, 0xA9]
      (by decide) (by decide)⟩
/-! ### Skill discovery (C9) -/

/-- Entry names of one directory level. -/
def FsEntries.names : FsEntries → List String
  | .nil => []
  | .cons n _ rest => n :: rest.names

/-- Well-formedness of a tree as on a real filesystem: sibling names are
distinct at every level. -/
def FsEntries.wfE : FsEntries → Bool
  | .nil => true
  | .cons n (.file _) rest => !(decide (n ∈ rest.names)) && rest.wfE
  | .cons n (.dir es) rest =>
      (!(decide (n ∈ rest.names)) && es.wfE) && rest.wfE

/-- Unfolding `lookupPath` by one directory step. -/
theorem lookupPath_cons_dir (seg : String) (q : Path) (es : FsEntries) :
    lookupPath (seg :: q) (.dir es) =
      match es.find seg with
      | some c => lookupPath q c
      | none => none := rfl

/-- A name absent from a level is not found there. -/
theorem find_eq_none_of_not_mem_names (es : FsEntries) (n : String)
    (h : n ∉ es.names) : es.find n = none := by
  match es with
  | .nil => rfl
  | .cons m c rest =>
      rw [FsEntries.names] at h
      simp only [List.mem_cons, not_or] at h
      obtain ⟨h1, h2⟩ := h
      rw [FsEntries.find, if_neg (fun hc => h1 hc.symm)]
      exact find_eq_none_of_not_mem_names rest n h2

/-- The walk discovers exactly the nonempty deny-list-free paths that
resolve to a directory directly holding a manifest entry named exactly
`SKILL.md` or exactly `skill.md` (for a well-formed root). -/
theorem skillDirs_mem_characterization (es : FsEntries) (p : Path)
    (hwf : es.wfE = true) :
    p ∈ es.skillDirs ↔
      (p ≠ [] ∧ (∀ seg ∈ p, seg ∉ SKIP_DIRS) ∧
        ∃ ces : FsEntries, lookupPath p (.dir es) = some (.dir ces) ∧
          hasManifest ces = true) := by
  match es with
  | .nil =>
      rw [FsEntries.skillDirs]
      simp only [List.not_mem_nil, false_iff]
      rintro ⟨hne, _, ces, hlook, _⟩
      cases p with
      | nil => exact hne rfl
      | cons seg q => exact Option.noConfusion hlook
  | .cons n (.file c) rest =>
      simp only [FsEntries.wfE, Bool.and_eq_true, Bool.not_eq_true',
        decide_eq_false_iff_not] at hwf
      obtain ⟨hn, hrest⟩ := hwf
      rw [FsEntries.skillDirs]
      rw [skillDirs_mem_characterization rest p hrest]
      constructor
      · rintro ⟨hne, hskips, ces, hlook, hman⟩
        refine ⟨hne, hskips, ces, ?_, hman⟩
        cases p with
        | nil => exact absurd rfl hne
        | cons seg q =>
            rw [lookupPath_cons_dir] at hlook
            rw [lookupPath_cons_dir, FsEntries.find]
            have hseg : ¬ (n = seg) := by
              intro h
              rw [← h, find_eq_none_of_not_mem_names rest n hn] at hlook
              cases hlook
            rw [if_neg hseg]
            exact hlook
      · rintro ⟨hne, hskips, ces, hlook, hman⟩
        refine ⟨hne, hskips, ces, ?_, hman⟩
        cases p with
        | nil => exact absurd rfl hne
        | cons seg q =>
            rw [lookupPath_cons_dir, FsEntries.find] at hlook
            rw [lookupPath_cons_dir]
            by_cases hseg : n = seg
            · rw [if_pos hseg] at hlook
              cases q with
              | nil => exact FsTree.noConfusion (Option.some.inj hlook)
              | cons a b => exact Option.noConfusion hlook
            · rw [if_neg hseg] at hlook
              exact hlook
  | .cons n (.dir ces) rest =>
      simp only [FsEntries.wfE, Bool.and_eq_true, Bool.not_eq_true',
        decide_eq_false_iff_not] at hwf
      obtain ⟨⟨hn, hces⟩, hrest⟩ := hwf
      rw [FsEntries.skillDirs]
      by_cases hskip : n ∈ SKIP_DIRS
      · rw [if_pos hskip]
        rw [skillDirs_mem_characterization rest p hrest]
        constructor
        · rintro ⟨hne, hskips, ces2, hlook, hman⟩
          refine ⟨hne, hskips, ces2, ?_, hman⟩
          cases p with
          | nil => exact absurd rfl hne
          | cons seg q =>
              rw [lookupPath_cons_dir] at hlook
              have hseg : ¬ (n = seg) := by
                intro h
                rw [← h, find_eq_none_of_not_mem_names rest n hn] at hlook
                cases hlook
              rw [lookupPath_cons_dir, FsEntries.find, if_neg hseg]
              exact hlook
        · rintro ⟨hne, hskips, ces2, hlook, hman⟩
          refine ⟨hne, hskips, ces2, ?_, hman⟩
          cases p with
          | nil => exact absurd rfl hne
          | cons seg q =>
              have hseg : ¬ (n = seg) := fun h =>
                hskips seg (List.mem_cons_self seg q) (h ▸ hskip)
              rw [lookupPath_cons_dir, FsEntries.find, if_neg hseg] at hlook
              rw [lookupPath_cons_dir]
              exact hlook
      · rw [if_neg hskip]
        constructor
        · intro hmem
          rcases List.mem_append.mp hmem with h12 | h3
          · rcases List.mem_append.mp h12 with h1 | h2
            · by_cases hman : hasManifest ces = true
              · rw [if_pos hman] at h1
                obtain rfl : p = [n] := List.mem_singleton.mp h1
                refine ⟨List.cons_ne_nil n [], ?_, ces, ?_, hman⟩
                · intro seg hseg
                  obtain rfl : seg = n := List.mem_singleton.mp hseg
                  exact hskip
                · rw [lookupPath_cons_dir, FsEntries.find, if_pos rfl]
                  rfl
              · rw [if_neg hman] at h1
                exact absurd h1 (List.not_mem_nil p)
            · rcases List.mem_map.mp h2 with ⟨q, hq, rfl⟩
              rcases (skillDirs_mem_characterization ces q hces).mp hq with
                ⟨hqne, hqskips, ces2, hqlook, hqman⟩
              refine ⟨List.cons_ne_nil n q, ?_, ces2, ?_, hqman⟩
              · intro seg hseg
                rcases List.mem_cons.mp hseg with rfl | hseg2
                · exact hskip
                · exact hqskips seg hseg2
              · rw [lookupPath_cons_dir, FsEntries.find, if_pos rfl]
                exact hqlook
          · rcases (skillDirs_mem_characterization rest p hrest).mp h3 with
              ⟨hne, hskips, ces2, hlook, hman⟩
            refine ⟨hne, hskips, ces2, ?_, hman⟩
            cases p with
            | nil => exact absurd rfl hne
            | cons seg q =>
                rw [lookupPath_cons_dir] at hlook
                have hseg : ¬ (n = seg) := by
                  intro h
                  rw [← h, find_eq_none_of_not_mem_names rest n hn] at hlook
                  cases hlook
                rw [lookupPath_cons_dir, FsEntries.find, if_neg hseg]
                exact hlook
        · rintro ⟨hne, hskips, ces2, hlook, hman⟩
          cases p with
          | nil => exact absurd rfl hne
          | cons seg q =>
              rw [lookupPath_cons_dir, FsEntries.find] at hlook
              by_cases hseg : n = seg
              · subst hseg
                rw [if_pos rfl] at hlook
                cases q with
                | nil =>
                    have hces2 : ces = ces2 := FsTree.dir.inj (Option.some.inj hlook)
                    subst hces2
                    refine List.mem_append.mpr (Or.inl (List.mem_append.mpr (Or.inl ?_)))
                    rw [if_pos hman]
                    exact List.mem_singleton.mpr rfl
                | cons a b =>
                    refine List.mem_append.mpr (Or.inl (List.mem_append.mpr (Or.inr ?_)))
                    refine List.mem_map.mpr ⟨a :: b, ?_, rfl⟩
                    refine (skillDirs_mem_characterization ces (a :: b) hces).mpr ?_
                    refine ⟨List.cons_ne_nil a b, ?_, ces2, hlook, hman⟩
                    intro seg2 hseg2
                    exact hskips seg2 (List.mem_cons_of_mem n hseg2)
              · rw [if_neg hseg] at hlook
                refine List.mem_append.mpr (Or.inr ?_)
                refine (skillDirs_mem_characterization rest (seg :: q) hrest).mpr ?_
                refine ⟨List.cons_ne_nil seg q, hskips, ces2, ?_, hman⟩
                rw [lookupPath_cons_dir]
                exact hlook
termination_by sizeOf es

/-- C9 (amended): under a well-formed root (distinct sibling names), a
relative path is discovered as a skill candidate exactly when it is
nonempty, contains no deny-listed segment, and resolves to a directory
directly containing a manifest entry named exactly `SKILL.md` or exactly
`skill.md`.  The lookup is an exact name comparison, not a case-folded
one: a manifest spelled with any other casing, such as `Skill.MD`, is not
accepted. -/
theorem mem_skillDirs_iff (es : FsEntries) (p : Path)
    (hwf : es.wfE = true) :
    p ∈ es.skillDirs ↔
      (p ≠ [] ∧ (∀ seg ∈ p, seg ∉ SKIP_DIRS) ∧
        ∃ ces : FsEntries, lookupPath p (.dir es) = some (.dir ces) ∧
          hasManifest ces = true) :=
  skillDirs_mem_characterization es p hwf

/-- The mixed-casing world: a directory `x` whose manifest is spelled
`Skill.MD`. -/
def mixedCaseEntries : FsEntries :=
  .cons "x" (.dir (.cons "Skill.MD" (.file (some "# skill")) .nil)) .nil

/-- C9 counterexample: `x` directly contains a file whose name equals the
manifest name under case folding (`lowerStr "Skill.MD" = "skill.md"`),
yet the walk discovers no skill directory at all, because `hasManifest`
looks up the exact names `SKILL.md` and `skill.md` only. -/
theorem skill_manifest_mixed_case_not_discovered :
    lowerStr "Skill.MD" = "skill.md" ∧
    isFileAt (.dir mixedCaseEntries) ["x", "Skill.MD"] = true ∧
    mixedCaseEntries.skillDirs = [] :=
  ⟨by decide, by decide, by decide⟩

/-- A small well-formed world with a properly named manifest. -/
def wfSkillEntries : FsEntries :=
  .cons "alpha" (.dir (.cons "SKILL.md" (.file (some "# skill")) .nil)) .nil

/-- C9 witness: the amended characterization applied to `wfSkillEntries`
at the path `["alpha"]`, whose well-formedness holds by evaluation. -/
theorem mem_skillDirs_iff_witness :
    wfSkillEntries.wfE = true ∧
    (["alpha"] ∈ wfSkillEntries.skillDirs ↔
      ((["alpha"] : Path) ≠ [] ∧
        (∀ seg ∈ (["alpha"] : Path), seg ∉ SKIP_DIRS) ∧
        ∃ ces : FsEntries,
          lookupPath ["alpha"] (.dir wfSkillEntries) = some (.dir ces) ∧
          hasManifest ces = true)) :=
  ⟨by decide, mem_skillDirs_iff wfSkillEntries ["alpha"] (by decide)⟩

/-! ### Scan identity comparison (C8) -/

/-- Members of the `uniqueAssets` fold come from the accumulator or the
input. -/
theorem mem_uniqueAssets_go (l acc : List DiscoveredAsset)
    (a : DiscoveredAsset)
    (h : a ∈ List.foldl (fun acc a =>
      if acc.any (fun b => b.kind = a.kind ∧ b.id = a.id ∧ b.path = a.path)
      then acc else acc ++ [a]) acc l) : a ∈ acc ∨ a ∈ l := by
  induction l generalizing acc with
  | nil => exact Or.inl h
  | cons x xs ih =>
      rw [List.foldl_cons] at h
      rcases ih _ h with hacc | hxs
      · split at hacc
        · exact Or.inl hacc
        · rcases List.mem_append.mp hacc with h1 | h2
          · exact Or.inl h1
          · obtain rfl : a = x := List.mem_singleton.mp h2
            exact Or.inr (List.mem_cons_self a xs)
      · exact Or.inr (List.mem_cons_of_mem x hxs)

/-- `uniqueAssets` only drops elements. -/
theorem mem_of_mem_uniqueAssets {l : List DiscoveredAsset}
    {a : DiscoveredAsset} (h : a ∈ uniqueAssets l) : a ∈ l :=
  (mem_uniqueAssets_go l [] a h).resolve_left (List.not_mem_nil a)

/-- Every asset produced by `discoverSkillsFromSource` carries the skill
kind. -/
theorem kind_of_mem_discoverSkills (world : FsTree) (s : ScanSource)
    (a : DiscoveredAsset) (h : a ∈ discoverSkillsFromSource world s) :
    a.kind = .skill := by
  rw [discoverSkillsFromSource] at h
  rcases List.mem_flatMap.mp h with ⟨root, _, hmem⟩
  rcases List.mem_map.mp hmem with ⟨rel, _, rfl⟩
  rfl

/-- `List.contains` on strings is plain membership. -/
theorem string_contains_iff (l : List String) (x : String) :
    l.contains x = true ↔ x ∈ l := by
  induction l with
  | nil => simp [List.contains]
  | cons y ys ih =>
      simp [List.contains, ih]

/-- C8 (amended): the scan compares identities verbatim.  Every prompt the
report lists as unsynced was discovered from one of the sources with its
id taken as the relative path minus the markdown extension, and that raw
id — no case folding, separator collapsing or traversal-segment stripping
is applied on either side — differs from every raw home prompt id.
`slugifyName` is not consulted during this comparison, so ids equal up to
slugification count as distinct. -/
theorem scanUnsyncedAssets_exact_raw_ids (world : FsTree) (home : Path)
    (sources : List ScanSource) (a : DiscoveredAsset)
    (ha : a ∈ (scanUnsyncedAssets world home sources).unsyncedPrompts) :
    a.kind = .prompt ∧
    a.id ∉ listPromptIdsFromRoot world home ∧
    ∃ s ∈ sources, a ∈ discoverPromptsFromSource world s := by
  simp only [scanUnsyncedAssets] at ha
  have h1 := mem_of_mem_uniqueAssets ha
  rw [List.mem_filter] at h1
  obtain ⟨h2, h3⟩ := h1
  have h3p : a.kind = AssetKind.prompt ∧
      ¬ (listPromptIdsFromRoot world home).contains a.id = true :=
    of_decide_eq_true h3
  have h4 := mem_of_mem_uniqueAssets h2
  rw [List.mem_filter] at h4
  obtain ⟨h5, _⟩ := h4
  rcases List.mem_flatMap.mp h5 with ⟨s, hs, hmem⟩
  rcases List.mem_append.mp hmem with hp | hsk
  · refine ⟨h3p.1, ?_, s, hs, hp⟩
    intro hmemid
    exact h3p.2 ((string_contains_iff _ _).mpr hmemid)
  · have hk := kind_of_mem_discoverSkills world s a hsk
    rw [h3p.1] at hk
    cases hk

/-- The world of the C8 scenario: home holds `prompts/foo.md`, the
scanned source holds `prompts/Foo.md` with the same content. -/
def c8World : FsTree :=
  .dir (.cons "home" (.dir
      (.cons "prompts" (.dir (.cons "foo.md" (.file (some "# p")) .nil)) .nil))
    (.cons "src" (.dir
      (.cons "prompts" (.dir (.cons "Foo.md" (.file (some "# p")) .nil)) .nil))
    .nil))

/-- The scanned source of the C8 scenario. -/
def c8Source : ScanSource :=
  { name := "s", root := ["src"], explicit := false }

/-- The discovered asset of the C8 scenario: its raw id keeps the original
casing. -/
def c8Asset : DiscoveredAsset :=
  { id := "Foo", kind := .prompt, source := "s",
    path := ["src", "prompts", "Foo.md"] }

/-- C8 counterexample: the home id `foo` and the discovered id `Foo` are
equal after slug normalisation, yet the scan reports the discovered prompt
as unsynced — the comparison uses the raw ids, not normalised ones. -/
theorem scan_id_not_normalized_counterexample :
    slugifyName "Foo" = slugifyName "foo" ∧
    listPromptIdsFromRoot c8World ["home"] = ["foo"] ∧
    (scanUnsyncedAssets c8World ["home"] [c8Source]).unsyncedPrompts.map
      (fun a => a.id) = ["Foo"] :=
  ⟨by decide, by decide, by decide⟩

/-- C8 witness: the amended theorem applied to the concrete scan of
`c8World`. -/
theorem scanUnsyncedAssets_exact_raw_ids_witness :
    c8Asset ∈ (scanUnsyncedAssets c8World ["home"] [c8Source]).unsyncedPrompts ∧
    (c8Asset.kind = .prompt ∧
      c8Asset.id ∉ listPromptIdsFromRoot c8World ["home"] ∧
      ∃ s ∈ [c8Source], c8Asset ∈ discoverPromptsFromSource c8World s) :=
  ⟨by decide,
    scanUnsyncedAssets_exact_raw_ids c8World ["home"] [c8Source] c8Asset
      (by decide)⟩

end Dotagents
